import Mathlib

/-!
Verification development for the `claudegram` repository, centred on
`scripts/medium_fetch.py`: the fetch-orchestration and content-normalization
pipeline.  Python strings are modelled as `List Char`; the stateful attempt
loop is modelled by explicit outcome oracles; fallible code returns `Option`
or an explicit result type.
-/

set_option maxHeartbeats 1000000

namespace Claudegram

/-! ### Python string primitives

`pySpace` is the ASCII whitespace set of Python `str.strip()`.
`lowerL` is `str.lower()` (ASCII-faithful), `pyStrip` is `str.strip()`,
`hasSub` is the Python `in` substring test. -/

def pySpace (c : Char) : Bool :=
  c = ' ' || c = '\t' || c = '\n' || c = '\r' || c = '\x0b' || c = '\x0c'
    || c = '\x1c' || c = '\x1d' || c = '\x1e' || c = '\x1f' || c = '\x85'
    || c = '\xa0' || c = '\u2028' || c = '\u2029'

def lowerL (l : List Char) : List Char := l.map Char.toLower

def trimLeft (l : List Char) : List Char := l.dropWhile pySpace

def trimR (l : List Char) : List Char := l.rdropWhile pySpace

def pyStrip (l : List Char) : List Char := trimR (trimLeft l)

def hasSub (n : List Char) : List Char → Bool
  | [] => n.isEmpty
  | l@(_ :: t) => n.isPrefixOf l || hasSub n t

/-! ### Bot-Defense Detector (`is_cloudflare_page`, medium_fetch.py lines 420-434)

Pure classifier: title interstitial phrase (case-insensitive) or one of a
fixed set of Cloudflare challenge markers in the lowered markup. -/

def challenge_markers : List (List Char) :=
  ["cf-browser-verification".toList,
   "cf-challenge-running".toList,
   "cf_chl_opt".toList,
   "cf-turnstile".toList,
   "<div id=\"challenge-error-title\"".toList]

def is_cloudflare_page (html title : List Char) : Bool :=
  if hasSub "just a moment".toList (lowerL title) then true
  else challenge_markers.any (fun m => hasSub m (lowerL html))

/-! ### More Python string primitives -/

def upperL (l : List Char) : List Char := l.map Char.toUpper

/-- `str.split(sep)` for a one-character separator (keeps empty pieces). -/
def splitOnChar (c : Char) : List Char → List (List Char)
  | [] => [[]]
  | a :: t =>
    if a = c then [] :: splitOnChar c t
    else
      match splitOnChar c t with
      | [] => [[a]]
      | h :: r => (a :: h) :: r

def countChar (c : Char) : List Char → Nat
  | [] => 0
  | a :: t => (if a = c then 1 else 0) + countChar c t

/-- `sep.join(pieces)` (as lists of characters). -/
def joinSep (sep : List Char) : List (List Char) → List Char
  | [] => []
  | [x] => x
  | x :: y :: t => x ++ sep ++ joinSep sep (y :: t)

/-- `s.strip(x)` for a single strip character `x`. -/
def stripCharL (x : Char) (l : List Char) : List Char :=
  ((l.dropWhile (· = x)).reverse.dropWhile (· = x)).reverse

mutual

/-- `re.split(r"\s+", s)`: split on maximal whitespace runs (edge runs give
empty edge pieces, as in Python).  `wsSkip` consumes the rest of a run. -/
def wsSplit : List Char → List (List Char)
  | [] => [[]]
  | c :: t =>
    if pySpace c then [] :: wsSkip t
    else
      match wsSplit t with
      | [] => [[c]]
      | h :: r => (c :: h) :: r

def wsSkip : List Char → List (List Char)
  | [] => [[]]
  | c :: t =>
    if pySpace c then wsSkip t
    else
      match wsSplit t with
      | [] => [[c]]
      | h :: r => (c :: h) :: r

end

/-- `int(s)` on a digit string (value of a decimal numeral). -/
def digitsToNat (l : List Char) : Nat :=
  l.foldl (fun a c => a * 10 + (c.toNat - '0'.toNat)) 0

/-! ### Session Context Loader (`load_netscape_cookies`, lines 273-310)

Cookie records parsed from a Netscape cookie export.  The file-reading
shell is I/O; the per-line record logic is modelled by `cookie_from_line`
and the loop by `load_netscape_cookies` over a given list of lines. -/

structure Cookie where
  name : List Char
  value : List Char
  domain : List Char
  path : List Char
  secure : Bool
  expires : Option Nat
  httpOnly : Bool
deriving DecidableEq

def httpOnlyMark : List Char := "#HttpOnly_".toList

/-- Field assembly for one cookie record (lines 293-309).  The
`domain.startswith("#HttpOnly_")` re-check of the source (lines 295-297) is
kept verbatim even though the marker was already removed from the line. -/
def cookie_of_parts (parts : List (List Char)) : Option Cookie :=
  match parts with
  | domain :: _flag :: pathv :: secure :: expires :: name :: value :: _ =>
    let httpOnly := httpOnlyMark.isPrefixOf domain
    let domain := if httpOnly then domain.drop 10 else domain
    some { name := name, value := value, domain := domain,
           path := if pathv = [] then "/".toList else pathv,
           secure := upperL secure = "TRUE".toList,
           expires := if expires ≠ [] && expires.all Char.isDigit
                      then some (digitsToNat expires) else none,
           httpOnly := httpOnly }
  | _ => none

/-- One iteration of the `load_netscape_cookies` line loop (lines 280-309). -/
def cookie_from_line (raw : List Char) : Option Cookie :=
  let line := pyStrip raw
  if line = [] then none
  else
    let line2 : Option (List Char) :=
      if line.head? = some '#' then
        if httpOnlyMark.isPrefixOf line then some (line.drop 10) else none
      else some line
    match line2 with
    | none => none
    | some l =>
      let parts := splitOnChar '\t' l
      let parts := if parts.length < 7 then wsSplit l else parts
      if parts.length < 7 then none else cookie_of_parts parts

def load_netscape_cookies (lines : List (List Char)) : List Cookie :=
  lines.filterMap cookie_from_line

/-! ### Proxy rotation (main, lines 794-800) -/

/-- `random.choice(entries)`: the environment supplies an arbitrary draw `r`;
the choice is always an element of the list. -/
def random_choice (entries : List (List Char)) (r : Nat) : List Char :=
  entries.getD (r % entries.length) []

/-- Per-attempt proxy selection (main, lines 794-800): with a nonempty list,
`random` draws from the list, `round_robin` takes index
`min(attempt, len - 1)`; with no list the single `proxy_value` is used. -/
def select_proxy (entries : List (List Char)) (rotate_random : Bool)
    (proxy_value : Option (List Char)) (attempt r : Nat) : Option (List Char) :=
  if entries = [] then proxy_value
  else if rotate_random then some (random_choice entries r)
  else some (entries.getD (min attempt (entries.length - 1)) [])

/-! ### The attempt loop (main, lines 790-871) -/

structure FetchErr where
  isRuntimeError : Bool
  id : Nat
deriving DecidableEq

inductive AttemptOutcome
  | success (html title : List Char)
  | failure (e : FetchErr)

structure LoopState where
  result : Option (List Char × List Char)
  last_error : Option FetchErr
  performed : Nat
deriving DecidableEq

/-- The retry loop body (lines 794-857): every exception records
`last_error` and continues; the first success clears `last_error` and
breaks. `performed` counts executed iterations. -/
def run_loop (outcome : Nat → AttemptOutcome) : List Nat → LoopState
  | [] => ⟨none, none, 0⟩
  | i :: rest =>
    match outcome i with
    | .success h t => ⟨some (h, t), none, 1⟩
    | .failure e =>
      match rest with
      | [] => ⟨none, some e, 1⟩
      | r1 :: rr =>
        let s := run_loop outcome (r1 :: rr)
        ⟨s.result, s.last_error, s.performed + 1⟩

/-- Lines 793-794: `attempts = max(1, int(proxy_retries))`, then
`for attempt in range(attempts)`. -/
def main_loop (outcome : Nat → AttemptOutcome) (retries : Int) : LoopState :=
  run_loop outcome (List.range (max 1 retries).toNat)

/-! ### Fallback Retriever (`fetch_rss_fallback`, lines 533-600) and the
post-loop dispatch (lines 859-871) -/

structure FeedItem where
  title : List Char
  link : List Char
  description : List Char
  content : List Char
  author : List Char
  pubDate : List Char
deriving DecidableEq

structure FallbackDoc where
  title : List Char
  author : List Char
  published : List Char
  content_html : List Char
  feed_url : List Char
deriving DecidableEq

/-- `urlparse(url)` components used by the fallback path. -/
structure PyUrl where
  scheme : List Char
  netloc : List Char
  path : List Char
deriving DecidableEq

def slugOk (c : Char) : Bool := c.isAlpha || c.isDigit || c = '-' || c = '_'

mutual

/-- `re.sub(r"[^a-zA-Z0-9-_]+", "-", s)`: each maximal run of characters
outside the class becomes a single dash.  `skipBad` consumes the rest of a
run already replaced by a dash. -/
def collapseBad : List Char → List Char
  | [] => []
  | c :: t =>
    if slugOk c then c :: collapseBad t
    else '-' :: skipBad t

def skipBad : List Char → List Char
  | [] => []
  | c :: t =>
    if slugOk c then c :: collapseBad t
    else skipBad t

end

/-- `slugify` (lines 29-33). -/
def slugify (u : PyUrl) : List Char :=
  let path := stripCharL '/' u.path
  let slug := (splitOnChar '/' path).getLastD []
  let slug := if slug = [] then "article".toList else slug
  let slug := stripCharL '-' (collapseBad slug)
  let slug := slug.take 80
  if slug = [] then "article".toList else slug

/-- Feed endpoint derivation (lines 556-571); the path is already known to be
nonempty when this is used. -/
def medium_feed_url (u : PyUrl) : List Char :=
  let path := stripCharL '/' u.path
  if path.head? = some '@' then
    let handle := (splitOnChar '/' path).headD []
    u.scheme ++ "://".toList ++ u.netloc ++ "/feed/".toList ++ handle
  else
    let parts := splitOnChar '/' path
    u.scheme ++ "://".toList ++ u.netloc ++ "/feed/".toList ++ parts.headD []

/-- `fetch_rss_fallback` (lines 555-600).  `feed` maps a feed URL to the
outcome of the HTTP fetch + parse: `none` models a fetch exception, `some
items` the parsed item list.  (`parts` from a split is never empty, so the
`if not feed_url` guard of line 570 is unreachable.) -/
def fetch_rss_fallback (u : PyUrl) (feed : List Char → Option (List FeedItem)) :
    Option FallbackDoc :=
  let path := stripCharL '/' u.path
  if path = [] then none
  else
    match feed (medium_feed_url u) with
    | none => none
    | some items =>
      match items with
      | [] => none
      | it0 :: _ =>
        let slug := slugify u
        let m := (items.find? (fun it => hasSub slug it.link)).getD it0
        some { title := m.title, author := m.author, published := m.pubDate,
               content_html := if m.content ≠ [] then m.content else m.description,
               feed_url := medium_feed_url u }

inductive RunResult
  | ok (html title : List Char)
  | raised (e : FetchErr)
  | fallback_doc (d : FallbackDoc)
deriving DecidableEq

/-- Post-loop dispatch (lines 859-871): a non-`RuntimeError` last error is
re-raised before the fallback flag is even consulted; with fallback enabled,
a `none` fallback re-raises the same last error; otherwise the fallback
document is used. -/
def after_loop (s : LoopState) (rss_fallback : Bool) (fb : Option FallbackDoc) :
    RunResult :=
  match s.result, s.last_error with
  | some (h, t), _ => .ok h t
  | none, some e =>
    if !e.isRuntimeError then .raised e
    else if !rss_fallback then .raised e
    else
      match fb with
      | none => .raised e
      | some d => .fallback_doc d
  | none, none => .ok [] []

/-! ### Proxy Provisioner: `normalize_proxy_value` (lines 88-110) -/

def sks5hPre : List Char := "socks5h://".toList

def cSep : List Char := "://".toList

def proxySchemes : List (List Char) :=
  ["http".toList, "https".toList, "socks5".toList, "socks5h".toList]

/-- The colon-form branch of `normalize_proxy_value` (lines 96-109): when the
value has no `://` and at least three colons, rebuild either the
scheme-tagged 5-field form or the legacy 4-field `host:port:user:pass` form;
otherwise the value itself. -/
def normalize_colon (v : List Char) : List Char :=
  if !hasSub cSep v && decide (countChar ':' v ≥ 3) then
    match splitOnChar ':' v with
    | [] => v
    | p0 :: rest =>
      let parts := p0 :: rest
      if proxySchemes.contains (lowerL p0) && decide (parts.length ≥ 5) then
        lowerL p0 ++ cSep ++ parts.getD 1 []
          ++ ":".toList ++ joinSep ":".toList ((parts.drop 2).dropLast.dropLast)
          ++ "@".toList ++ parts.getD (parts.length - 2) []
          ++ ":".toList ++ parts.getLastD []
      else
        "http://".toList ++ parts.getD 2 [] ++ ":".toList
          ++ joinSep ":".toList (parts.drop 3)
          ++ "@".toList ++ p0 ++ ":".toList ++ parts.getD 1 []
  else v

/-- Body of `normalize_proxy_value` (lines 94-110) applied to the stripped
value: the `socks5h://` rewrite of line 94-95, then the colon-form branch. -/
def normalize_core (t : List Char) : List Char :=
  normalize_colon
    (if sks5hPre.isPrefixOf t then "socks5://".toList ++ t.drop 10 else t)

/-- `normalize_proxy_value` (lines 88-110): `None`/empty/whitespace-only
input yields `None`, otherwise the stripped value is normalized. -/
def normalize_proxy_value : Option (List Char) → Option (List Char)
  | none => none
  | some p =>
    if p = [] then none
    else
      let value := pyStrip p
      if value = [] then none else some (normalize_core value)

/-- The supported input shapes of the C6 claim, over the stripped value:
the two `scheme://...` URL forms (they contain `://`), the bare `host:port`
form (exactly one colon, whitespace-free fields), and the 4-field legacy
form `host:port:user:pass` (exactly three colons, whitespace-free fields). -/
def supported_proxy_shape (s : List Char) : Bool :=
  let t := pyStrip s
  hasSub cSep t
    || (t.all (fun c => !pySpace c)
        && (decide (countChar ':' t = 1) || decide (countChar ':' t = 3)))

/-! ### Image Localizer (main, lines 962-1000) -/

/-- A `<source>` element inside a `<picture>` wrapper. -/
structure SourceEl where
  testid : Option (List Char)
  srcset : Option (List Char)
deriving DecidableEq

/-- An `<img>` element: its `src`/`data-src` attributes and, when its parent
is a `<picture>`, that parent's `<source>` children. -/
structure ImgTag where
  src : Option (List Char)
  dataSrc : Option (List Char)
  picture : Option (List SourceEl)
deriving DecidableEq

/-- Python truthiness for an optional string attribute (absent or empty is
falsy). -/
def pyTruthy : Option (List Char) → Option (List Char)
  | none => none
  | some v => if v = [] then none else some v

/-- `[s.strip().split()[0] for s in srcset.split(",") if s.strip()]`
(lines 902-903 / 977-978). -/
def srcset_parts (srcset : List Char) : List (List Char) :=
  (splitOnChar ',' srcset).filterMap (fun s =>
    let t := pyStrip s
    if t = [] then none else some (t.takeWhile (fun c => !pySpace c)))

/-- Source resolution for one image element (lines 970-979):
`tag.get("src") or tag.get("data-src")`, else — inside a `<picture>` — the
`<source data-testid="og">` child (or the first `<source>`), taking the last
srcset candidate. -/
def resolve_img_src (tag : ImgTag) : Option (List Char) :=
  match (pyTruthy tag.src).or (pyTruthy tag.dataSrc) with
  | some v => some v
  | none =>
    match tag.picture with
    | none => none
    | some sources =>
      let source :=
        match sources.find? (fun s => s.testid == some "og".toList) with
        | some s => some s
        | none => sources.head?
      match source with
      | none => none
      | some s =>
        match pyTruthy s.srcset with
        | none => none
        | some ss => (srcset_parts ss).getLast?

def dataPre : List Char := "data:".toList

/-- Part of `urlparse(src).path`: for an absolute URL, the piece after the
authority up to `?`/`#`; otherwise the input up to `?`/`#`. -/
def dropAfterSep : List Char → Option (List Char)
  | [] => none
  | l@(_ :: t) => if cSep.isPrefixOf l then some (l.drop 3) else dropAfterSep t

def url_path (u : List Char) : List Char :=
  let base :=
    match dropAfterSep u with
    | some rest => rest.dropWhile (fun c => c ≠ '/')
    | none => u
  base.takeWhile (fun c => c ≠ '?' && c ≠ '#')

/-- `pathlib.Path(p).suffix`: the extension of the final nonempty path
component — the part from the last dot, provided that dot is neither the
first nor the last character of the name. -/
def path_suffix (p : List Char) : List Char :=
  let name := ((splitOnChar '/' p).filter (fun c => c ≠ [])).getLastD []
  let post := name.reverse.takeWhile (fun c => c ≠ '.')
  if post.length = name.length then []
  else if post.length = 0 then []
  else if name.length - 1 - post.length = 0 then []
  else '.' :: post.reverse

/-- Decimal digits of `n` (fuel-based so that it fully evaluates). -/
def decDigitsAux : Nat → Nat → List Char
  | 0, _ => []
  | fuel + 1, n =>
    if n < 10 then [Nat.digitChar n]
    else decDigitsAux fuel (n / 10) ++ [Nat.digitChar (n % 10)]

def decDigits (n : Nat) : List Char := decDigitsAux (n + 1) n

/-- Python `f"{n:02d}"`. -/
def pad2 (n : Nat) : List Char :=
  if n < 10 then '0' :: decDigits n else decDigits n

/-- Value of a decimal digit string (used to invert `pad2`). -/
def readDigits (l : List Char) : Nat :=
  l.foldl (fun a c => 10 * a + (c.toNat - 48)) 0

/-- Lines 988-990: extension from the URL path, defaulting to `.jpg` when
missing or longer than 5 characters (dot included). -/
def img_ext (src : List Char) : List Char :=
  let ext := path_suffix (url_path src)
  if ext = [] || decide (ext.length > 5) then ".jpg".toList else ext

/-- Line 991: `f"image_{idx:02d}{ext}"`. -/
def img_local_name (idx : Nat) (src : List Char) : List Char :=
  "image_".toList ++ pad2 idx ++ img_ext src

/-- The image loop (lines 969-999): enumerate from 1; skip images with no
resolvable or inline (`data:`) source; on a successful download (`dl`, the
oracle for `download_image`) rewrite the element's `src` to the local
relative path and append the pair to the mapping; on failure leave the
element untouched and record nothing. -/
def localize_go (dl : Nat → List Char → Bool) :
    Nat → List ImgTag → List ImgTag × List (List Char × List Char)
  | _, [] => ([], [])
  | idx, tag :: rest =>
    let r := localize_go dl (idx + 1) rest
    match resolve_img_src tag with
    | none => (tag :: r.1, r.2)
    | some src =>
      if src = [] || dataPre.isPrefixOf src then (tag :: r.1, r.2)
      else if dl idx src then
        ({ tag with src := some ("images/".toList ++ img_local_name idx src) }
            :: r.1,
         ("images/".toList ++ img_local_name idx src, src) :: r.2)
      else (tag :: r.1, r.2)

def localize_images (dl : Nat → List Char → Bool) (tags : List ImgTag) :
    List ImgTag × List (List Char × List Char) :=
  localize_go dl 1 tags

/-! ### Content Normalizer: `clean_markdown` (lines 372-417)

Python `str.splitlines` is modelled over its line separators
(`\n`, `\r`, `\r\n`, `\x0b`, `\x0c`, `\x1c`, `\x1d`, `\x1e`, `\x85`,
` `, ` `); exotic Unicode space characters beyond those listed in
`pySpace` are not modelled. -/

def isLineSep (c : Char) : Bool :=
  c = '\n' || c = '\r' || c = '\x0b' || c = '\x0c' || c = '\x1c' || c = '\x1d'
    || c = '\x1e' || c = '\x85' || c = '\u2028' || c = '\u2029'

/-- `str.splitlines`: split at separators (a `\r\n` pair is one break),
dropping a trailing empty piece.  `acc` is the current line, reversed. -/
def splitlinesAux (acc : List Char) : List Char → List (List Char)
  | [] => if acc.isEmpty then [] else [acc.reverse]
  | [c] => if isLineSep c then [acc.reverse] else [(c :: acc).reverse]
  | c :: d :: rest =>
    if isLineSep c then
      if c = '\r' && d = '\n' then acc.reverse :: splitlinesAux [] rest
      else acc.reverse :: splitlinesAux [] (d :: rest)
    else splitlinesAux (c :: acc) (d :: rest)

def splitlinesL (s : List Char) : List (List Char) := splitlinesAux [] s

/-- The fixed noise vocabulary of `clean_markdown` (lines 376-388). -/
def drop_exact : List (List Char) :=
  ["follow".toList, "share".toList, "listen".toList, "sign in".toList,
   "sign up".toList, "write".toList, "subscribe".toList, "clap".toList,
   "comments".toList, "bookmark".toList,
   "press enter or click to view image in full size".toList]

/-- Existence of a split `l = A ++ sep ++ r` with `A` newline-free and
`k r`. -/
def existsSplitAfter (sep : List Char) (l : List Char)
    (k : List Char → Bool) : Bool :=
  (List.range (l.length + 1)).any (fun i =>
    !(l.take i).contains '\n' && sep.isPrefixOf (l.drop i)
      && k ((l.drop i).drop sep.length))

/-- `re.match(r"^\[!\[.*\]\(.*\)\]\(.*\)$", s)` (line 405): the
avatar-style linked-thumbnail shape `[![A](B)](C)`. -/
def avatarMatch (l : List Char) : Bool :=
  "[![".toList.isPrefixOf l
    && existsSplitAfter "](".toList (l.drop 3) (fun r1 =>
         existsSplitAfter ")](".toList r1 (fun r2 =>
           !r2.contains '\n' && r2.getLast? == some ')'))

/-- One iteration of the line loop of `clean_markdown` (lines 390-412):
blank lines are appended as empty strings; noise-vocabulary lines
(case-insensitively), sign-in-marker lines, avatar-style image-link lines
and short numeric lines are dropped; anything else is kept verbatim. -/
def cleanLine (line : List Char) : Option (List Char) :=
  let stripped := pyStrip line
  let lower := lowerL stripped
  if stripped = [] then some []
  else if drop_exact.contains lower then none
  else if hasSub "m/signin".toList stripped then none
  else if avatarMatch stripped then none
  else if decide (stripped.length ≤ 3) && stripped.all Char.isDigit then none
  else some line

def cleanLines (lines : List (List Char)) : List (List Char) :=
  lines.filterMap cleanLine

/-- `re.sub(r"\n{3,}", "\n\n", s)` (line 416): shorten every run of three or
more newlines to two. -/
def collapseNl : List Char → List Char
  | [] => []
  | [c] => [c]
  | [c, d] => [c, d]
  | c :: d :: e :: rest =>
    if c = '\n' && d = '\n' && e = '\n' then collapseNl (d :: e :: rest)
    else c :: collapseNl (d :: e :: rest)

def nl3 : List Char := ['\n', '\n', '\n']

/-- `clean_markdown` (lines 372-417). -/
def clean_markdown (md : List Char) : List Char :=
  pyStrip (collapseNl (joinSep ['\n'] (cleanLines (splitlinesL md))))

/-- `modifyLast`: apply `f` to the last element. -/
def modLastF (f : List Char → List Char) : List (List Char) → List (List Char)
  | [] => []
  | [a] => [f a]
  | a :: b :: rest => a :: modLastF f (b :: rest)

/-- Strings whose only line separator is `\n`. -/
def onlyNl (s : List Char) : Prop :=
  ∀ c ∈ s, isLineSep c = true → c = '\n'

/-- The fixed points of `clean_markdown`: newline-only separators, no triple
newline, no edge whitespace, and every line kept verbatim by the line
filter. -/
def NormalizedStr (s : List Char) : Prop :=
  onlyNl s
  ∧ hasSub nl3 s = false
  ∧ (∀ c, s.head? = some c → pySpace c = false)
  ∧ (∀ c, s.getLast? = some c → pySpace c = false)
  ∧ ∀ l ∈ splitlinesL s, cleanLine l = some l

/-- Witness inputs for C8: two images with direct sources; the download
oracle succeeds only for index 1. -/
def c8w_tags : List ImgTag :=
  [⟨some "https://cdn.example.com/photos/one.png".toList, none, none⟩,
   ⟨some "https://cdn.example.com/photos/two.png".toList, none, none⟩]

def c8w_dl : Nat → List Char → Bool := fun i _ => decide (i = 1)

/-- Counterexample outcome stream for C1: a fatal (non-`RuntimeError`)
failure on attempt 0, success afterwards. -/
def c1_cex_outcome : Nat → AttemptOutcome
  | 0 => .failure ⟨false, 7⟩
  | _ => .success "<html>ok</html>".toList "ok".toList

/-- All-failing outcome stream used by witnesses. -/
def all_fail_outcome : Nat → AttemptOutcome :=
  fun i => .failure ⟨true, i⟩

/-- C4: the bot-defense detector is a pure function of (markup, title): it is
true exactly when the lowered title contains the interstitial phrase
"just a moment" or the lowered markup contains one of the fixed challenge
markers; it is false on markup whose only platform-related text is the
analytics domain `cloudflareinsights.com` with an unrelated title, true on a
`cf-turnstile` marker, and true on an upper-case title variant. -/
theorem c4_bot_defense_detector :
    (∀ html title, is_cloudflare_page html title =
      (hasSub "just a moment".toList (lowerL title)
        || challenge_markers.any (fun m => hasSub m (lowerL html))))
    ∧ is_cloudflare_page
        "<script src=\"https://static.cloudflareinsights.com/beacon.min.js\"></script>".toList
        "Latest Posts".toList = false
    ∧ is_cloudflare_page
        "<div class=\"cf-turnstile\" data-sitekey=\"x\"></div>".toList
        "Access denied".toList = true
    ∧ is_cloudflare_page "<html><body>hi</body></html>".toList
        "Just a MOMENT...".toList = true := by
  refine ⟨fun html title => ?_, by decide, by decide, by decide⟩
  by_cases h : hasSub "just a moment".toList (lowerL title) <;>
    simp [is_cloudflare_page, h]

/-! ### Attempt-loop lemmas -/

theorem run_loop_fail_one (outcome : Nat → AttemptOutcome) {i : Nat} {e : FetchErr}
    (he : outcome i = .failure e) :
    run_loop outcome [i] = ⟨none, some e, 1⟩ := by
  unfold run_loop
  rw [he]

theorem run_loop_fail_cons (outcome : Nat → AttemptOutcome) {i r1 : Nat}
    {rr : List Nat} {e : FetchErr} (he : outcome i = .failure e) :
    run_loop outcome (i :: r1 :: rr) =
      ⟨(run_loop outcome (r1 :: rr)).result,
       (run_loop outcome (r1 :: rr)).last_error,
       (run_loop outcome (r1 :: rr)).performed + 1⟩ := by
  conv_lhs => rw [run_loop]
  rw [he]

theorem run_loop_all_fail (outcome : Nat → AttemptOutcome) (idxs : List Nat)
    (h : ∀ i ∈ idxs, ∃ e, outcome i = .failure e) :
    (run_loop outcome idxs).result = none
      ∧ (run_loop outcome idxs).performed = idxs.length := by
  induction idxs with
  | nil => exact ⟨rfl, rfl⟩
  | cons i rest ih =>
    obtain ⟨e, he⟩ := h i (List.mem_cons_self i rest)
    have hrest : ∀ j ∈ rest, ∃ e, outcome j = .failure e :=
      fun j hj => h j (List.mem_cons_of_mem _ hj)
    cases rest with
    | nil => rw [run_loop_fail_one outcome he]; exact ⟨rfl, rfl⟩
    | cons r1 rr =>
      have hr := ih hrest
      rw [run_loop_fail_cons outcome he]
      exact ⟨hr.1, by simp [hr.2]⟩

theorem run_loop_perf_ge (outcome : Nat → AttemptOutcome) (idxs : List Nat)
    (k : Nat) (hk : k ≤ idxs.length)
    (h : ∀ i ∈ idxs.take k, ∃ e, outcome i = .failure e) :
    k ≤ (run_loop outcome idxs).performed := by
  induction idxs generalizing k with
  | nil => exact hk
  | cons i rest ih =>
    cases k with
    | zero => exact Nat.zero_le _
    | succ k =>
      obtain ⟨e, he⟩ := h i (by simp)
      cases rest with
      | nil =>
        have hk0 : k = 0 := by simpa using hk
        subst hk0
        rw [run_loop_fail_one outcome he]
      | cons r1 rr =>
        have hk' : k ≤ (r1 :: rr).length := by simpa using hk
        have h' : ∀ j ∈ (r1 :: rr).take k, ∃ e, outcome j = .failure e := by
          intro j hj
          exact h j (by simpa using Or.inr hj)
        have hge := ih k hk' h'
        rw [run_loop_fail_cons outcome he]
        show k + 1 ≤ (run_loop outcome (r1 :: rr)).performed + 1
        omega

/-- C10: the attempt loop always performs at least one attempt.  For the
resolved retry count `r` (an integer, possibly zero or negative), the number
of iterations performed before failure is `max 1 r`; in particular a
non-positive retry configuration yields exactly one attempt, never zero. -/
theorem c10_attempt_floor (retries : Int) (outcome : Nat → AttemptOutcome)
    (hfail : ∀ i, ∃ e, outcome i = .failure e) :
    (main_loop outcome retries).performed = (max 1 retries).toNat
    ∧ 1 ≤ (main_loop outcome retries).performed
    ∧ (retries ≤ 0 → (main_loop outcome retries).performed = 1) := by
  have hall := run_loop_all_fail outcome (List.range (max 1 retries).toNat)
    (fun i _ => hfail i)
  have hperf : (main_loop outcome retries).performed = (max 1 retries).toNat := by
    simpa [main_loop] using hall.2
  have hone : 1 ≤ (max 1 retries).toNat := by
    have : (1 : Int) ≤ max 1 retries := le_max_left 1 retries
    omega
  refine ⟨hperf, by omega, fun hneg => ?_⟩
  have : max 1 retries = 1 := by
    rcases max_choice 1 retries with h | h
    · exact h
    · omega
  rw [hperf, this]
  rfl

theorem c10_attempt_floor_witness :
    (main_loop all_fail_outcome 0).performed = 1
    ∧ 1 ≤ (main_loop all_fail_outcome (-5)).performed := by
  have h1 := c10_attempt_floor 0 all_fail_outcome (fun i => ⟨⟨true, i⟩, rfl⟩)
  have h2 := c10_attempt_floor (-5) all_fail_outcome (fun i => ⟨⟨true, i⟩, rfl⟩)
  exact ⟨h1.2.2 (by omega), h2.2.1⟩

/-- C1 counterexample: a run whose attempt 0 raises an unexpected
(non-`RuntimeError`) failure, after which the loop nevertheless performs a
second attempt (which succeeds): the fatal failure did not propagate
immediately and did consume a retry slot. -/
theorem c1_counterexample :
    c1_cex_outcome 0 = .failure ⟨false, 7⟩
    ∧ (main_loop c1_cex_outcome 3).performed = 2
    ∧ (main_loop c1_cex_outcome 3).result =
        some ("<html>ok</html>".toList, "ok".toList) := by
  refine ⟨rfl, by decide, by decide⟩

/-- C1 (amended): inside the loop, failures of every class — including
unexpected non-`RuntimeError` ones — consume a retry attempt and the loop
keeps going; only after the loop does a non-`RuntimeError` last error
propagate, and it is never eligible for the feed fallback (it is re-raised
even when the fallback flag is set and a fallback document is available). -/
theorem c1_fatal_error_handling :
    (∀ (outcome : Nat → AttemptOutcome) (retries : Int) (k : Nat),
        k ≤ (max 1 retries).toNat →
        (∀ i ∈ (List.range (max 1 retries).toNat).take k, ∃ e, outcome i = .failure e) →
        k ≤ (main_loop outcome retries).performed)
    ∧ (∀ (outcome : Nat → AttemptOutcome) (retries : Int) (rss : Bool)
        (fb : Option FallbackDoc) (e : FetchErr),
        (main_loop outcome retries).result = none →
        (main_loop outcome retries).last_error = some e →
        e.isRuntimeError = false →
        after_loop (main_loop outcome retries) rss fb = .raised e) := by
  constructor
  · intro outcome retries k hk h
    exact run_loop_perf_ge outcome (List.range (max 1 retries).toNat) k
      (by simpa using hk) h
  · intro outcome retries rss fb e hres herr hrt
    simp [after_loop, hres, herr, hrt]

def c1w_outcome : Nat → AttemptOutcome := fun i => .failure ⟨false, i⟩

theorem c1_fatal_error_handling_witness :
    2 ≤ (main_loop c1w_outcome 3).performed
    ∧ after_loop (main_loop c1w_outcome 2) true
        (some ⟨"t".toList, [], [], [], []⟩) = .raised ⟨false, 1⟩ := by
  constructor
  · exact c1_fatal_error_handling.1 c1w_outcome 3 2 (by decide)
      (fun i _ => ⟨⟨false, i⟩, rfl⟩)
  · exact c1_fatal_error_handling.2 c1w_outcome 2 true _ ⟨false, 1⟩
      (by decide) (by decide) rfl

/-- C3: per-attempt proxy selection.  Round-robin over a nonempty candidate
list of length `k` yields the candidate at position `min i (k-1)` on attempt
`i`; with a 2-entry list and 5 attempts the sequence is [p0, p1, p1, p1, p1];
random rotation always yields a member of the candidate list. -/
theorem c3_proxy_rotation :
    (∀ (entries : List (List Char)) (pv : Option (List Char)) (i r : Nat)
        (h : entries ≠ []),
        ∃ hlt : min i (entries.length - 1) < entries.length,
          select_proxy entries false pv i r
            = some (entries.get ⟨min i (entries.length - 1), hlt⟩))
    ∧ (∀ (entries : List (List Char)) (pv : Option (List Char)) (i r : Nat),
        entries ≠ [] →
        ∃ p ∈ entries, select_proxy entries true pv i r = some p)
    ∧ ((List.range 5).map
        (fun i => select_proxy ["p0".toList, "p1".toList] false none i 0)
        = [some "p0".toList, some "p1".toList, some "p1".toList,
           some "p1".toList, some "p1".toList]) := by
  refine ⟨?_, ?_, by decide⟩
  · intro entries pv i r h
    have hpos : 0 < entries.length := List.length_pos.mpr h
    have hlt : min i (entries.length - 1) < entries.length :=
      Nat.lt_of_le_of_lt (Nat.min_le_right _ _) (Nat.sub_lt hpos Nat.one_pos)
    refine ⟨hlt, ?_⟩
    simp [select_proxy, h, List.getD_eq_getElem?_getD, List.getElem?_eq_getElem hlt,
      List.get_eq_getElem]
  · intro entries pv i r h
    have hpos : 0 < entries.length := List.length_pos.mpr h
    have hlt : r % entries.length < entries.length := Nat.mod_lt _ hpos
    refine ⟨entries.get ⟨r % entries.length, hlt⟩, List.get_mem _ _ _, ?_⟩
    simp [select_proxy, h, random_choice, List.getD_eq_getElem?_getD,
      List.getElem?_eq_getElem hlt, List.get_eq_getElem]

theorem c3_proxy_rotation_witness :
    (∃ hlt : min 5 1 < (["a".toList, "b".toList] : List (List Char)).length,
      select_proxy ["a".toList, "b".toList] false none 5 0
        = some ((["a".toList, "b".toList] : List (List Char)).get ⟨min 5 1, hlt⟩))
    ∧ ∃ p ∈ (["a".toList, "b".toList] : List (List Char)),
        select_proxy ["a".toList, "b".toList] true none 0 3 = some p := by
  exact ⟨c3_proxy_rotation.1 ["a".toList, "b".toList] none 5 0 (by decide),
    c3_proxy_rotation.2.1 ["a".toList, "b".toList] none 0 3 (by decide)⟩

/-- C5 (evaluating the code at the failing input): a `#HttpOnly_`-prefixed
cookie line is unwrapped (the domain keeps its leading dot but loses the
marker), yet the produced record has `httpOnly = false`, because the
re-check at lines 295-297 can never fire once line 285 has already removed
the marker.  Ordinary comment lines and short records are skipped. -/
theorem c5_httponly_line_parsing :
    ((cookie_from_line
        "#HttpOnly_.medium.com\tTRUE\t/\tTRUE\t1767225600\tsid\tsecretvalue".toList).map
        (fun c => (c.domain, c.httpOnly))
      = some (".medium.com".toList, false))
    ∧ cookie_from_line "# Netscape HTTP Cookie File".toList = none
    ∧ cookie_from_line "medium.com\tTRUE\t/".toList = none := by
  refine ⟨by decide, by decide, by decide⟩

/-- C2: the fallback retriever returns nothing when the feed fetch fails or
yields an empty item list, in which case the post-loop dispatch re-raises the
original blocking error unchanged (the very same error value); when items
exist, the produced document is built from the entry whose link contains the
target slug, or from the first entry when no link matches. -/
theorem c2_fallback_reraise_and_selection :
    (∀ (u : PyUrl) (feed : List Char → Option (List FeedItem)),
        (feed (medium_feed_url u) = none ∨ feed (medium_feed_url u) = some []) →
        fetch_rss_fallback u feed = none)
    ∧ (∀ (s : LoopState) (u : PyUrl) (feed : List Char → Option (List FeedItem))
        (e : FetchErr),
        s.result = none → s.last_error = some e → e.isRuntimeError = true →
        fetch_rss_fallback u feed = none →
        after_loop s true (fetch_rss_fallback u feed) = .raised e)
    ∧ (∀ (u : PyUrl) (feed : List Char → Option (List FeedItem))
        (it0 : FeedItem) (rest : List FeedItem),
        stripCharL '/' u.path ≠ [] →
        feed (medium_feed_url u) = some (it0 :: rest) →
        ∃ m ∈ it0 :: rest,
          fetch_rss_fallback u feed =
            some { title := m.title, author := m.author, published := m.pubDate,
                   content_html := if m.content ≠ [] then m.content else m.description,
                   feed_url := medium_feed_url u }
          ∧ (hasSub (slugify u) m.link = true
             ∨ ((∀ it ∈ it0 :: rest, hasSub (slugify u) it.link = false)
                ∧ m = it0))) := by
  refine ⟨?_, ?_, ?_⟩
  · intro u feed h
    unfold fetch_rss_fallback
    rcases h with h | h <;>
      · by_cases hp : stripCharL '/' u.path = [] <;> simp [hp, h]
  · intro s u feed e hres herr hrt hnone
    simp [after_loop, hres, herr, hrt, hnone]
  · intro u feed it0 rest hp hfeed
    cases hfind : (it0 :: rest).find? (fun it => hasSub (slugify u) it.link) with
    | none =>
      refine ⟨it0, List.mem_cons_self _ _, ?_, ?_⟩
      · unfold fetch_rss_fallback
        simp [hp, hfeed, hfind]
      · refine Or.inr ⟨?_, rfl⟩
        intro it hit
        have := List.find?_eq_none.mp hfind it hit
        simpa using this
    | some m =>
      have hmem : m ∈ it0 :: rest := List.mem_of_find?_eq_some hfind
      have hpred : hasSub (slugify u) m.link = true := by
        simpa using List.find?_some hfind
      refine ⟨m, hmem, ?_, Or.inl hpred⟩
      unfold fetch_rss_fallback
      simp [hp, hfeed, hfind]

def c2w_url : PyUrl :=
  ⟨"https".toList, "medium.com".toList, "/blog/my-post-abc".toList⟩

def c2w_item : FeedItem :=
  ⟨"T".toList, "https://medium.com/blog/my-post-abc".toList,
   "D".toList, "C".toList, "A".toList, "P".toList⟩

def c2w_feed : List Char → Option (List FeedItem) := fun _ => some [c2w_item]

def c2w_feed_empty : List Char → Option (List FeedItem) := fun _ => some []

theorem c2_fallback_reraise_and_selection_witness :
    fetch_rss_fallback c2w_url c2w_feed_empty = none
    ∧ after_loop ⟨none, some ⟨true, 3⟩, 2⟩ true
        (fetch_rss_fallback c2w_url c2w_feed_empty) = .raised ⟨true, 3⟩
    ∧ ∃ m ∈ [c2w_item],
        fetch_rss_fallback c2w_url c2w_feed =
          some { title := m.title, author := m.author, published := m.pubDate,
                 content_html := if m.content ≠ [] then m.content else m.description,
                 feed_url := medium_feed_url c2w_url }
        ∧ (hasSub (slugify c2w_url) m.link = true
           ∨ ((∀ it ∈ [c2w_item], hasSub (slugify c2w_url) it.link = false)
              ∧ m = c2w_item)) := by
  refine ⟨?_, ?_, ?_⟩
  · exact c2_fallback_reraise_and_selection.1 c2w_url c2w_feed_empty (Or.inr rfl)
  · exact c2_fallback_reraise_and_selection.2.1 ⟨none, some ⟨true, 3⟩, 2⟩
      c2w_url c2w_feed_empty ⟨true, 3⟩ rfl rfl rfl
      (c2_fallback_reraise_and_selection.1 c2w_url c2w_feed_empty (Or.inr rfl))
  · exact c2_fallback_reraise_and_selection.2.2 c2w_url c2w_feed c2w_item []
      (by decide) rfl

/-! ### Trim toolkit -/

theorem trimLeft_head_not {l : List Char} {c : Char}
    (h : (trimLeft l).head? = some c) : pySpace c = false := by
  have h' := List.head?_dropWhile_not pySpace l
  rw [show trimLeft l = l.dropWhile pySpace from rfl] at h
  rw [h] at h'
  exact h'

theorem trimR_last_not {l : List Char} {c : Char}
    (h : (trimR l).getLast? = some c) : pySpace c = false := by
  have hne : trimR l ≠ [] := by
    intro e
    rw [e] at h
    exact Option.noConfusion h
  have h2 := List.rdropWhile_last_not pySpace l (by exact hne)
  have h3 := List.getLast?_eq_getLast_of_ne_nil (l := trimR l) hne
  rw [h] at h3
  have : c = (trimR l).getLast hne := Option.some.inj h3
  rw [this]
  exact Bool.eq_false_iff.mpr h2

theorem trimR_head? {l : List Char} (h : trimR l ≠ []) :
    (trimR l).head? = l.head? := by
  obtain ⟨t, ht⟩ := List.rdropWhile_prefix pySpace l
  conv_rhs => rw [← ht]
  cases hr : trimR l with
  | nil => exact absurd hr h
  | cons a s =>
    rw [show trimR l = l.rdropWhile pySpace from rfl] at hr
    rw [hr]
    rfl

theorem pyStrip_head_not {l : List Char} {c : Char}
    (h : (pyStrip l).head? = some c) : pySpace c = false := by
  have hne : pyStrip l ≠ [] := by
    intro e
    rw [e] at h
    exact Option.noConfusion h
  rw [show pyStrip l = trimR (trimLeft l) from rfl] at h hne
  rw [trimR_head? hne] at h
  exact trimLeft_head_not h

theorem pyStrip_last_not {l : List Char} {c : Char}
    (h : (pyStrip l).getLast? = some c) : pySpace c = false :=
  trimR_last_not h

theorem pyStrip_eq_self {l : List Char}
    (h1 : ∀ c, l.head? = some c → pySpace c = false)
    (h2 : ∀ c, l.getLast? = some c → pySpace c = false) : pyStrip l = l := by
  cases l with
  | nil => rfl
  | cons a t =>
    have ha : pySpace a = false := h1 a rfl
    have htl : trimLeft (a :: t) = a :: t := by
      rw [show trimLeft (a :: t) = (a :: t).dropWhile pySpace from rfl]
      exact List.dropWhile_cons_of_neg (by simp [ha])
    rw [show pyStrip (a :: t) = trimR (trimLeft (a :: t)) from rfl, htl]
    rw [show trimR (a :: t) = (a :: t).rdropWhile pySpace from rfl]
    apply List.rdropWhile_eq_self_iff.mpr
    intro hl
    have := h2 ((a :: t).getLast hl) (List.getLast?_eq_getLast_of_ne_nil hl)
    simp [this]

theorem pyStrip_idem (l : List Char) : pyStrip (pyStrip l) = pyStrip l :=
  pyStrip_eq_self (fun _ h => pyStrip_head_not h) (fun _ h => pyStrip_last_not h)

theorem pyStrip_nil : pyStrip [] = [] := rfl

/-! ### `hasSub` lemmas -/

theorem hasSub_cons {n : List Char} (c : Char) {t : List Char}
    (h : hasSub n t = true) : hasSub n (c :: t) = true := by
  simp [hasSub, h]

theorem hasSub_of_isPrefixOf {n l : List Char} (h : n.isPrefixOf l = true) :
    hasSub n l = true := by
  cases l with
  | nil =>
    cases n with
    | nil => rfl
    | cons a s => simp [List.isPrefixOf] at h
  | cons a s => simp [hasSub, h]

theorem hasSub_mid (n pre post : List Char) :
    hasSub n (pre ++ (n ++ post)) = true := by
  induction pre with
  | nil =>
    apply hasSub_of_isPrefixOf
    exact List.isPrefixOf_iff_prefix.mpr ⟨post, rfl⟩
  | cons c pre ih => exact hasSub_cons c ih

theorem isPrefixOf_eq_append {n l : List Char} (h : n.isPrefixOf l = true) :
    l = n ++ l.drop n.length := by
  have := List.prefix_iff_eq_append.mp (List.isPrefixOf_iff_prefix.mp h)
  exact this.symm

/-! ### `splitOnChar` lemmas -/

theorem splitOnChar_ne_nil (c : Char) (l : List Char) : splitOnChar c l ≠ [] := by
  cases l with
  | nil => simp [splitOnChar]
  | cons a t =>
    by_cases h : a = c
    · simp [splitOnChar, h]
    · simp only [splitOnChar, if_neg h]
      cases splitOnChar c t <;> simp

theorem splitOnChar_length (c : Char) (l : List Char) :
    (splitOnChar c l).length = countChar c l + 1 := by
  induction l with
  | nil => rfl
  | cons a t ih =>
    by_cases h : a = c
    · simp [splitOnChar, countChar, h, ih]
      omega
    · simp only [splitOnChar, if_neg h, countChar, if_neg h]
      cases hs : splitOnChar c t with
      | nil => exact absurd hs (splitOnChar_ne_nil c t)
      | cons p r =>
        rw [hs] at ih
        simpa using ih

theorem splitOnChar_mem_subset (c : Char) (l : List Char) :
    ∀ p ∈ splitOnChar c l, ∀ x ∈ p, x ∈ l := by
  induction l with
  | nil =>
    intro p hp x hx
    simp [splitOnChar] at hp
    subst hp
    simp at hx
  | cons a t ih =>
    intro p hp x hx
    by_cases h : a = c
    · simp only [splitOnChar, if_pos h] at hp
      rcases List.mem_cons.mp hp with h1 | h1
      · subst h1; simp at hx
      · exact List.mem_cons_of_mem _ (ih p h1 x hx)
    · simp only [splitOnChar, if_neg h] at hp
      cases hs : splitOnChar c t with
      | nil => exact absurd hs (splitOnChar_ne_nil c t)
      | cons q r =>
        rw [hs] at hp
        rcases List.mem_cons.mp hp with h1 | h1
        · subst h1
          rcases List.mem_cons.mp hx with h2 | h2
          · subst h2; simp
          · exact List.mem_cons_of_mem _ (ih q (by rw [hs]; simp) x h2)
        · exact List.mem_cons_of_mem _ (ih p (by rw [hs]; simp [h1]) x hx)

theorem length_eq_four {α : Type} {l : List α} (h : l.length = 4) :
    ∃ a b c d, l = [a, b, c, d] := by
  cases l with
  | nil => simp at h
  | cons a l =>
    cases l with
    | nil => simp at h
    | cons b l =>
      cases l with
      | nil => simp at h
      | cons c l =>
        cases l with
        | nil => simp at h
        | cons d l =>
          cases l with
          | nil => exact ⟨a, b, c, d, rfl⟩
          | cons e l => simp at h

theorem getLast?_drop_of_ne_nil {l : List Char} {n : Nat} (h : l.drop n ≠ []) :
    (l.drop n).getLast? = l.getLast? := by
  conv_rhs => rw [← List.take_append_drop n l]
  rw [List.getLast?_append_of_ne_nil _ h]

/-! ### C6: idempotence of proxy normalization -/

theorem normalize_value_eq (p : List Char) :
    normalize_proxy_value (some p) =
      if p = [] then none
      else if pyStrip p = [] then none else some (normalize_core (pyStrip p)) := rfl

theorem guard_false_of_hasSub {v : List Char} (hs : hasSub cSep v = true) :
    (!hasSub cSep v && decide (countChar ':' v ≥ 3)) = false := by
  rw [hs]
  rfl

theorem normalize_colon_guard_false {v : List Char}
    (hg : (!hasSub cSep v && decide (countChar ':' v ≥ 3)) = false) :
    normalize_colon v = v := by
  unfold normalize_colon
  rw [hg]
  simp

theorem normalize_colon_legacy {v : List Char} {p0 p1 p2 p3 : List Char}
    (hg : (!hasSub cSep v && decide (countChar ':' v ≥ 3)) = true)
    (hps : splitOnChar ':' v = [p0, p1, p2, p3]) :
    normalize_colon v = "http://".toList ++ p2 ++ ":".toList ++ p3
      ++ "@".toList ++ p0 ++ ":".toList ++ p1 := by
  unfold normalize_colon
  rw [hg, if_pos rfl, hps]
  simp [joinSep, List.getD]

theorem normalize_core_sks5h {t : List Char} (hp : sks5hPre.isPrefixOf t = true) :
    normalize_core t = normalize_colon ("socks5://".toList ++ t.drop 10) := by
  unfold normalize_core
  rw [hp]
  simp

theorem normalize_core_no_sks5h {t : List Char}
    (hp : sks5hPre.isPrefixOf t = false) :
    normalize_core t = normalize_colon t := by
  unfold normalize_core
  rw [hp]
  simp

/-- Strings that are already fixed points of the normalizer: nonempty, no
whitespace at the edges, containing `://`, and not starting with
`socks5h://`. -/
theorem normalize_fixed {r : List Char} (hne : r ≠ [])
    (h1 : ∀ c, r.head? = some c → pySpace c = false)
    (h2 : ∀ c, r.getLast? = some c → pySpace c = false)
    (hsub : hasSub cSep r = true)
    (hpre : sks5hPre.isPrefixOf r = false) :
    normalize_proxy_value (some r) = some r := by
  have hstrip : pyStrip r = r := pyStrip_eq_self h1 h2
  rw [normalize_value_eq, if_neg hne, hstrip, if_neg hne]
  rw [normalize_core_no_sks5h hpre,
    normalize_colon_guard_false (guard_false_of_hasSub hsub)]

theorem hasSub_of_sks5h {t : List Char} (hp : sks5hPre.isPrefixOf t = true) :
    hasSub cSep t = true := by
  have hd : t = sks5hPre ++ t.drop 10 := isPrefixOf_eq_append hp
  rw [hd]
  exact hasSub_mid cSep "socks5h".toList (t.drop 10)

/-- C6: proxy normalization is idempotent on every supported input shape
(the `scheme://...` forms, bare `host:port`, and the 4-field legacy
`host:port:user:pass` form). -/
theorem c6_normalize_idempotent (s : List Char)
    (h : supported_proxy_shape s = true) :
    normalize_proxy_value (normalize_proxy_value (some s))
      = normalize_proxy_value (some s) := by
  by_cases hs : s = []
  · subst hs
    exact absurd h (by decide)
  have hstr : (∀ c, (pyStrip s).head? = some c → pySpace c = false)
      ∧ ∀ c, (pyStrip s).getLast? = some c → pySpace c = false :=
    ⟨fun _ hc => pyStrip_head_not hc, fun _ hc => pyStrip_last_not hc⟩
  by_cases hA : hasSub cSep (pyStrip s) = true
  · -- URL form: the value (after the socks5h rewrite) is returned as is.
    have htne : pyStrip s ≠ [] := by
      intro h0
      rw [h0] at hA
      exact absurd hA (by decide)
    have happ1 : normalize_proxy_value (some s)
        = some (normalize_core (pyStrip s)) := by
      rw [normalize_value_eq, if_neg hs, if_neg htne]
    by_cases hp : sks5hPre.isPrefixOf (pyStrip s) = true
    · -- socks5h:// is rewritten to socks5://
      have hsubv : hasSub cSep ("socks5://".toList ++ (pyStrip s).drop 10)
          = true := hasSub_mid cSep "socks5".toList ((pyStrip s).drop 10)
      have hv : normalize_core (pyStrip s)
          = "socks5://".toList ++ (pyStrip s).drop 10 := by
        rw [normalize_core_sks5h hp,
          normalize_colon_guard_false (guard_false_of_hasSub hsubv)]
      rw [happ1, hv]
      apply normalize_fixed
      · simp
      · intro c hc
        rw [show ("socks5://".toList ++ (pyStrip s).drop 10).head?
            = some 's' from rfl] at hc
        have hch := Option.some.inj hc
        subst hch
        rfl
      · intro c hc
        by_cases hd : (pyStrip s).drop 10 = []
        · rw [hd] at hc
          have hch : '/' = c := by
            rw [show (("socks5://".toList ++ ([] : List Char)) : List Char).getLast?
                = some '/' from rfl] at hc
            exact Option.some.inj hc
          subst hch
          rfl
        · rw [List.getLast?_append_of_ne_nil _ hd, getLast?_drop_of_ne_nil hd] at hc
          exact hstr.2 c hc
      · exact hasSub_mid cSep "socks5".toList ((pyStrip s).drop 10)
      · rfl
    · -- URL form without the socks5h scheme: returned unchanged.
      have hpf : sks5hPre.isPrefixOf (pyStrip s) = false :=
        Bool.eq_false_iff.mpr hp
      have hv : normalize_core (pyStrip s) = pyStrip s := by
        rw [normalize_core_no_sks5h hpf,
          normalize_colon_guard_false (guard_false_of_hasSub hA)]
      rw [happ1, hv]
      exact normalize_fixed htne hstr.1 hstr.2 hA hpf
  · -- colon forms: no "://" substring
    have hnA : hasSub cSep (pyStrip s) = false := Bool.eq_false_iff.mpr hA
    have hB : (∀ c ∈ pyStrip s, pySpace c = false)
        ∧ (countChar ':' (pyStrip s) = 1 ∨ countChar ':' (pyStrip s) = 3) := by
      unfold supported_proxy_shape at h
      simp only [Bool.or_eq_true, Bool.and_eq_true, List.all_eq_true,
        decide_eq_true_eq] at h
      rcases h with h1 | ⟨hws, hc⟩
      · exact absurd h1 hA
      · exact ⟨fun c hc' => by simpa using hws c hc', hc⟩
    have hpf : sks5hPre.isPrefixOf (pyStrip s) = false := by
      by_cases hcon : sks5hPre.isPrefixOf (pyStrip s) = true
      · exact absurd (hasSub_of_sks5h hcon) hA
      · exact Bool.eq_false_iff.mpr hcon
    rcases hB.2 with hc1 | hc3
    · -- bare host:port (one colon): returned unchanged
      have htne : pyStrip s ≠ [] := by
        intro h0
        rw [h0] at hc1
        simp [countChar] at hc1
      have hguard : (!hasSub cSep (pyStrip s)
          && decide (countChar ':' (pyStrip s) ≥ 3)) = false := by
        rw [hnA, hc1]
        rfl
      have hcore : normalize_core (pyStrip s) = pyStrip s := by
        rw [normalize_core_no_sks5h hpf, normalize_colon_guard_false hguard]
      have happ1 : normalize_proxy_value (some s) = some (pyStrip s) := by
        rw [normalize_value_eq, if_neg hs, if_neg htne, hcore]
      rw [happ1, normalize_value_eq, if_neg htne, pyStrip_idem, if_neg htne,
        hcore]
    · -- legacy 4-field host:port:user:pass
      have htne : pyStrip s ≠ [] := by
        intro h0
        rw [h0] at hc3
        simp [countChar] at hc3
      have hlen : (splitOnChar ':' (pyStrip s)).length = 4 := by
        rw [splitOnChar_length, hc3]
      obtain ⟨p0, p1, p2, p3, hps⟩ := length_eq_four hlen
      have hguard : (!hasSub cSep (pyStrip s)
          && decide (countChar ':' (pyStrip s) ≥ 3)) = true := by
        rw [hnA, hc3]
        rfl
      have hcore : normalize_core (pyStrip s)
          = "http://".toList ++ p2 ++ ":".toList ++ p3
              ++ "@".toList ++ p0 ++ ":".toList ++ p1 := by
        rw [normalize_core_no_sks5h hpf]
        exact normalize_colon_legacy hguard hps
      have happ1 : normalize_proxy_value (some s)
          = some ("http://".toList ++ p2 ++ ":".toList ++ p3
              ++ "@".toList ++ p0 ++ ":".toList ++ p1) := by
        rw [normalize_value_eq, if_neg hs, if_neg htne, hcore]
      rw [happ1]
      apply normalize_fixed
      · simp
      · intro c hc
        rw [show ("http://".toList ++ p2 ++ ":".toList ++ p3 ++ "@".toList
              ++ p0 ++ ":".toList ++ p1).head? = some 'h' from rfl] at hc
        have hch := Option.some.inj hc
        subst hch
        rfl
      · intro c hc
        have hre : "http://".toList ++ p2 ++ ":".toList ++ p3 ++ "@".toList
              ++ p0 ++ ":".toList ++ p1
            = ("http://".toList ++ p2 ++ ":".toList ++ p3 ++ "@".toList
                ++ p0) ++ (':' :: p1) := by
          simp [List.append_assoc]
        rw [hre, List.getLast?_append_cons] at hc
        cases hp1 : p1 with
        | nil =>
          rw [hp1] at hc
          have hch := Option.some.inj hc
          subst hch
          rfl
        | cons x xs =>
          rw [hp1] at hc
          rw [show (':' :: x :: xs) = [':'] ++ (x :: xs) from rfl,
              List.getLast?_append_of_ne_nil _ (by simp)] at hc
          obtain ⟨hne', heq⟩ :=
            List.mem_getLast?_eq_getLast (Option.mem_def.mpr hc)
          have hcm : c ∈ p1 := by
            rw [hp1, heq]
            exact List.getLast_mem hne'
          have hct : c ∈ pyStrip s :=
            splitOnChar_mem_subset ':' (pyStrip s) p1 (by rw [hps]; simp) c hcm
          exact hB.1 c hct
      · exact hasSub_mid cSep "http".toList
          (p2 ++ ":".toList ++ p3 ++ "@".toList ++ p0 ++ ":".toList ++ p1)
      · rfl

theorem c6_normalize_idempotent_witness :
    supported_proxy_shape "http://user:pw@example.com:8080".toList = true
    ∧ normalize_proxy_value
        (normalize_proxy_value (some "http://user:pw@example.com:8080".toList))
      = normalize_proxy_value (some "http://user:pw@example.com:8080".toList)
    ∧ supported_proxy_shape "socks5h://example.com:1080".toList = true
    ∧ normalize_proxy_value
        (normalize_proxy_value (some "socks5h://example.com:1080".toList))
      = normalize_proxy_value (some "socks5h://example.com:1080".toList)
    ∧ supported_proxy_shape "example.com:8080".toList = true
    ∧ normalize_proxy_value
        (normalize_proxy_value (some "example.com:8080".toList))
      = normalize_proxy_value (some "example.com:8080".toList)
    ∧ supported_proxy_shape "example.com:8080:user:pw".toList = true
    ∧ normalize_proxy_value
        (normalize_proxy_value (some "example.com:8080:user:pw".toList))
      = normalize_proxy_value (some "example.com:8080:user:pw".toList) := by
  refine ⟨by decide, c6_normalize_idempotent _ (by decide),
    by decide, c6_normalize_idempotent _ (by decide),
    by decide, c6_normalize_idempotent _ (by decide),
    by decide, c6_normalize_idempotent _ (by decide)⟩

/-! ### C8: image localization -/

theorem digitChar_toNat : ∀ d, d < 10 → (Nat.digitChar d).toNat = 48 + d := by
  decide

theorem digitChar_isDigit : ∀ d, d < 10 → (Nat.digitChar d).isDigit = true := by
  decide

theorem readDigits_append_digit (l : List Char) (c : Char) :
    readDigits (l ++ [c]) = 10 * readDigits l + (c.toNat - 48) := by
  simp [readDigits, List.foldl_append]

theorem readDigits_cons_zero (l : List Char) :
    readDigits ('0' :: l) = readDigits l := rfl

theorem readDigits_decAux : ∀ fuel n, n < fuel →
    readDigits (decDigitsAux fuel n) = n := by
  intro fuel
  induction fuel with
  | zero => intro n h; omega
  | succ fuel ih =>
    intro n h
    by_cases h10 : n < 10
    · rw [show decDigitsAux (fuel + 1) n = [Nat.digitChar n] from by
        simp [decDigitsAux, h10]]
      have hd := digitChar_toNat n h10
      simp [readDigits]
      omega
    · rw [show decDigitsAux (fuel + 1) n
          = decDigitsAux fuel (n / 10) ++ [Nat.digitChar (n % 10)] from by
        simp [decDigitsAux, h10]]
      rw [readDigits_append_digit, ih (n / 10) (by omega)]
      have hd := digitChar_toNat (n % 10) (Nat.mod_lt _ (by norm_num))
      omega

theorem readDigits_pad2 (n : Nat) : readDigits (pad2 n) = n := by
  unfold pad2
  by_cases h : n < 10
  · rw [if_pos h, readDigits_cons_zero]
    exact readDigits_decAux _ _ (by omega)
  · rw [if_neg h]
    exact readDigits_decAux _ _ (by omega)

theorem decDigitsAux_digits : ∀ fuel n, ∀ c ∈ decDigitsAux fuel n,
    c.isDigit = true := by
  intro fuel
  induction fuel with
  | zero => intro n c hc; simp [decDigitsAux] at hc
  | succ fuel ih =>
    intro n c hc
    by_cases h10 : n < 10
    · rw [show decDigitsAux (fuel + 1) n = [Nat.digitChar n] from by
        simp [decDigitsAux, h10]] at hc
      simp at hc
      subst hc
      exact digitChar_isDigit n h10
    · rw [show decDigitsAux (fuel + 1) n
          = decDigitsAux fuel (n / 10) ++ [Nat.digitChar (n % 10)] from by
        simp [decDigitsAux, h10]] at hc
      rcases List.mem_append.mp hc with h1 | h1
      · exact ih _ c h1
      · simp at h1
        subst h1
        exact digitChar_isDigit _ (Nat.mod_lt _ (by norm_num))

theorem pad2_digits (n : Nat) : ∀ c ∈ pad2 n, c.isDigit = true := by
  intro c hc
  unfold pad2 at hc
  by_cases h : n < 10
  · rw [if_pos h] at hc
    rcases List.mem_cons.mp hc with h1 | h1
    · subst h1; rfl
    · exact decDigitsAux_digits _ _ c h1
  · rw [if_neg h] at hc
    exact decDigitsAux_digits _ _ c hc

theorem path_suffix_shape (p : List Char) :
    path_suffix p = [] ∨ ∃ e, path_suffix p = '.' :: e := by
  unfold path_suffix
  dsimp only
  split
  · exact Or.inl rfl
  · split
    · exact Or.inl rfl
    · split
      · exact Or.inl rfl
      · exact Or.inr ⟨_, rfl⟩

theorem img_ext_head (src : List Char) : ∃ e, img_ext src = '.' :: e := by
  unfold img_ext
  dsimp only
  split
  · exact ⟨"jpg".toList, rfl⟩
  · rename_i h
    rcases path_suffix_shape (url_path src) with h0 | ⟨e, he⟩
    · rw [h0] at h
      simp at h
    · exact ⟨e, he⟩

theorem takeWhile_all_append {p : Char → Bool} (l₁ l₂ : List Char)
    (h1 : ∀ c ∈ l₁, p c = true) :
    (l₁ ++ l₂).takeWhile p = l₁ ++ l₂.takeWhile p := by
  induction l₁ with
  | nil => rfl
  | cons a t ih =>
    have ha : p a = true := h1 a (by simp)
    rw [List.cons_append, List.takeWhile_cons, ha, if_pos rfl,
      ih (fun c hc => h1 c (by simp [hc])), List.cons_append]

theorem img_name_inj {j1 j2 : Nat} {s1 s2 : List Char} (hne : j1 ≠ j2) :
    "images/".toList ++ img_local_name j1 s1
      ≠ "images/".toList ++ img_local_name j2 s2 := by
  intro he
  have he3 : pad2 j1 ++ img_ext s1 = pad2 j2 ++ img_ext s2 := by
    have h4 : "images/image_".toList ++ (pad2 j1 ++ img_ext s1)
        = "images/image_".toList ++ (pad2 j2 ++ img_ext s2) := by
      simpa [img_local_name, List.append_assoc] using he
    exact List.append_cancel_left h4
  obtain ⟨e1, he1⟩ := img_ext_head s1
  obtain ⟨e2, he2⟩ := img_ext_head s2
  rw [he1, he2] at he3
  have ht : pad2 j1 = pad2 j2 := by
    have h5 := congrArg (List.takeWhile Char.isDigit) he3
    rw [takeWhile_all_append _ _ (pad2_digits j1),
      takeWhile_all_append _ _ (pad2_digits j2)] at h5
    simpa [List.takeWhile_cons] using h5
  exact hne (by rw [← readDigits_pad2 j1, ← readDigits_pad2 j2, ht])

theorem localize_map_mem (dl : Nat → List Char → Bool) :
    ∀ (tags : List ImgTag) (idx : Nat) (p : List Char × List Char),
      p ∈ (localize_go dl idx tags).2 →
      ∃ j src, idx ≤ j ∧ p = ("images/".toList ++ img_local_name j src, src)
        ∧ dl j src = true := by
  intro tags
  induction tags with
  | nil =>
    intro idx p hp
    simp [localize_go] at hp
  | cons tag rest ih =>
    intro idx p hp
    simp only [localize_go] at hp
    cases hres : resolve_img_src tag with
    | none =>
      rw [hres] at hp
      dsimp only at hp
      obtain ⟨j, src, hj, hpe, hdl⟩ := ih (idx + 1) p hp
      exact ⟨j, src, by omega, hpe, hdl⟩
    | some src =>
      rw [hres] at hp
      dsimp only at hp
      by_cases hskip : (src = [] || dataPre.isPrefixOf src) = true
      · rw [if_pos hskip] at hp
        obtain ⟨j, src', hj, hpe, hdl⟩ := ih (idx + 1) p hp
        exact ⟨j, src', by omega, hpe, hdl⟩
      · rw [if_neg hskip] at hp
        by_cases hdl : dl idx src = true
        · rw [if_pos hdl] at hp
          rcases List.mem_cons.mp hp with h1 | h1
          · exact ⟨idx, src, le_refl idx, h1, hdl⟩
          · obtain ⟨j, src', hj, hpe, hdl'⟩ := ih (idx + 1) p h1
            exact ⟨j, src', by omega, hpe, hdl'⟩
        · rw [if_neg hdl] at hp
          obtain ⟨j, src', hj, hpe, hdl'⟩ := ih (idx + 1) p hp
          exact ⟨j, src', by omega, hpe, hdl'⟩

theorem localize_map_nodup (dl : Nat → List Char → Bool) :
    ∀ (tags : List ImgTag) (idx : Nat),
      (((localize_go dl idx tags).2).map Prod.fst).Pairwise (· ≠ ·) := by
  intro tags
  induction tags with
  | nil =>
    intro idx
    simp [localize_go]
  | cons tag rest ih =>
    intro idx
    simp only [localize_go]
    cases hres : resolve_img_src tag with
    | none => exact ih (idx + 1)
    | some src =>
      dsimp only
      by_cases hskip : (src = [] || dataPre.isPrefixOf src) = true
      · rw [if_pos hskip]
        exact ih (idx + 1)
      · rw [if_neg hskip]
        by_cases hdl : dl idx src = true
        · rw [if_pos hdl]
          refine List.pairwise_cons.mpr ⟨?_, ih (idx + 1)⟩
          intro y hy
          obtain ⟨q, hq, hqy⟩ := List.mem_map.mp hy
          obtain ⟨j, src', hj, hpe, _⟩ :=
            localize_map_mem dl rest (idx + 1) q hq
          rw [← hqy, hpe]
          exact img_name_inj (by omega)
        · rw [if_neg hdl]
          exact ih (idx + 1)

theorem localize_len (dl : Nat → List Char → Bool) :
    ∀ (tags : List ImgTag) (idx : Nat),
      (localize_go dl idx tags).1.length = tags.length := by
  intro tags
  induction tags with
  | nil => intro idx; rfl
  | cons tag rest ih =>
    intro idx
    simp only [localize_go]
    cases hres : resolve_img_src tag with
    | none => simp [ih (idx + 1)]
    | some src =>
      dsimp only
      by_cases hskip : (src = [] || dataPre.isPrefixOf src) = true
      · rw [if_pos hskip]; simp [ih (idx + 1)]
      · rw [if_neg hskip]
        by_cases hdl : dl idx src = true
        · rw [if_pos hdl]; simp [ih (idx + 1)]
        · rw [if_neg hdl]; simp [ih (idx + 1)]

theorem localize_failed_unchanged (dl : Nat → List Char → Bool) :
    ∀ (tags : List ImgTag) (idx k : Nat) (tagk : ImgTag) (u : List Char),
      tags[k]? = some tagk →
      resolve_img_src tagk = some u →
      ¬(u = [] ∨ dataPre.isPrefixOf u = true) →
      dl (idx + k) u = false →
      (localize_go dl idx tags).1[k]? = some tagk := by
  intro tags
  induction tags with
  | nil =>
    intro idx k tagk u hget
    simp at hget
  | cons tag rest ih =>
    intro idx k tagk u hget hres hns hdl
    cases k with
    | zero =>
      have htag : tagk = tag := by simpa using hget.symm
      subst htag
      have hns' : ¬u = [] ∧ ¬dataPre.isPrefixOf u = true := not_or.mp hns
      have hskip : (decide (u = []) || dataPre.isPrefixOf u) = false := by
        simp [hns'.1, Bool.eq_false_iff.mpr hns'.2]
      have hdl0 : dl idx u = false := by simpa using hdl
      simp only [localize_go]
      rw [hres]
      dsimp only
      rw [hskip]
      simp [hdl0]
    | succ k =>
      have hgetr : rest[k]? = some tagk := by simpa using hget
      have hdlk : dl ((idx + 1) + k) u = false := by
        have he : (idx + 1) + k = idx + (k + 1) := by omega
        rw [he]
        exact hdl
      have hrec := ih (idx + 1) k tagk u hgetr hres hns hdlk
      simp only [localize_go]
      cases hres1 : resolve_img_src tag with
      | none => simpa using hrec
      | some src =>
        dsimp only
        by_cases hskip : (src = [] || dataPre.isPrefixOf src) = true
        · rw [if_pos hskip]
          simpa using hrec
        · rw [if_neg hskip]
          by_cases hdl1 : dl idx src = true
          · rw [if_pos hdl1]
            simpa using hrec
          · rw [if_neg hdl1]
            simpa using hrec

/-- C8: image localization.  Every mapping entry carries an indexed local
filename `images/image_<idx><ext>` for an index ≥ 1 whose download
succeeded; local filenames are pairwise distinct (collision-free for any
number of images, even with equal extensions, because the zero-padded index
is recoverable from the name); a failed download leaves the element at that
position unmodified and contributes no mapping pair; and a responsive-image
wrapper without a direct source resolves to the last (largest) srcset
candidate — concretely `b.jpg` for `"a.jpg 400w, b.jpg 800w"`. -/
theorem c8_image_localization :
    (∀ (dl : Nat → List Char → Bool) (tags : List ImgTag)
        (p : List Char × List Char), p ∈ (localize_images dl tags).2 →
        ∃ j src, 1 ≤ j ∧ p = ("images/".toList ++ img_local_name j src, src)
          ∧ dl j src = true)
    ∧ (∀ (dl : Nat → List Char → Bool) (tags : List ImgTag),
        (((localize_images dl tags).2).map Prod.fst).Pairwise (· ≠ ·))
    ∧ (∀ (dl : Nat → List Char → Bool) (tags : List ImgTag) (k : Nat)
        (tagk : ImgTag) (u : List Char),
        tags[k]? = some tagk →
        resolve_img_src tagk = some u →
        ¬(u = [] ∨ dataPre.isPrefixOf u = true) →
        dl (k + 1) u = false →
        (localize_images dl tags).1[k]? = some tagk
        ∧ ("images/".toList ++ img_local_name (k + 1) u, u)
            ∉ (localize_images dl tags).2)
    ∧ (∀ (tag : ImgTag) (sources : List SourceEl) (s : SourceEl)
        (ss : List Char),
        pyTruthy tag.src = none → pyTruthy tag.dataSrc = none →
        tag.picture = some sources →
        (match sources.find? (fun s0 => s0.testid == some "og".toList) with
         | some s0 => some s0
         | none => sources.head?) = some s →
        pyTruthy s.srcset = some ss →
        resolve_img_src tag = (srcset_parts ss).getLast?)
    ∧ resolve_img_src
        ⟨none, none, some [⟨none, some "a.jpg 400w, b.jpg 800w".toList⟩]⟩
        = some "b.jpg".toList := by
  refine ⟨?_, ?_, ?_, ?_, by decide⟩
  · intro dl tags p hp
    exact localize_map_mem dl tags 1 p hp
  · intro dl tags
    exact localize_map_nodup dl tags 1
  · intro dl tags k tagk u hget hres hns hdl
    have hdl1 : dl (1 + k) u = false := by
      have he : 1 + k = k + 1 := by omega
      rw [he]; exact hdl
    refine ⟨localize_failed_unchanged dl tags 1 k tagk u hget hres hns hdl1, ?_⟩
    intro hmem
    obtain ⟨j, src, hj, hpe, hdlj⟩ := localize_map_mem dl tags 1 _ hmem
    have hfst : "images/".toList ++ img_local_name (k + 1) u
        = "images/".toList ++ img_local_name j src := congrArg Prod.fst hpe
    have hsnd : u = src := congrArg Prod.snd hpe
    by_cases hjk : j = k + 1
    · subst hjk
      rw [← hsnd] at hdlj
      rw [hdlj] at hdl
      exact Bool.noConfusion hdl
    · exact img_name_inj (fun h => hjk h.symm) hfst
  · intro tag sources s ss h1 h2 h3 h4 h5
    unfold resolve_img_src
    rw [h1, h2]
    dsimp only [Option.or]
    rw [h3]
    dsimp only
    rw [h4]
    dsimp only
    rw [h5]

theorem c8_image_localization_witness :
    (∃ j src, 1 ≤ j
      ∧ (("images/image_01.png".toList,
          "https://cdn.example.com/photos/one.png".toList)
            : List Char × List Char)
          = ("images/".toList ++ img_local_name j src, src)
      ∧ c8w_dl j src = true)
    ∧ (localize_images c8w_dl c8w_tags).1[1]?
        = some ⟨some "https://cdn.example.com/photos/two.png".toList, none, none⟩
    ∧ ("images/".toList
          ++ img_local_name 2 "https://cdn.example.com/photos/two.png".toList,
        "https://cdn.example.com/photos/two.png".toList)
        ∉ (localize_images c8w_dl c8w_tags).2
    ∧ resolve_img_src
        ⟨none, none, some [⟨none, some "a.jpg 400w, b.jpg 800w".toList⟩]⟩
        = some "b.jpg".toList := by
  have h1 := c8_image_localization.1 c8w_dl c8w_tags
    ("images/image_01.png".toList,
     "https://cdn.example.com/photos/one.png".toList) (by decide)
  have h3 := c8_image_localization.2.2.1 c8w_dl c8w_tags 1
    ⟨some "https://cdn.example.com/photos/two.png".toList, none, none⟩
    "https://cdn.example.com/photos/two.png".toList
    (by decide) (by decide) (by decide) (by decide)
  exact ⟨h1, h3.1, h3.2, c8_image_localization.2.2.2.2⟩

/-! ### Splitlines lemmas -/

theorem slAux_cons_sep (acc : List Char) (c : Char) (rest : List Char)
    (hs : isLineSep c = true) (hc : ¬(c = '\r' ∧ rest.head? = some '\n')) :
    splitlinesAux acc (c :: rest) = acc.reverse :: splitlinesAux [] rest := by
  cases rest with
  | nil => simp [splitlinesAux, hs]
  | cons d r2 =>
    have hcd : (c = '\r' && d = '\n') = false := by
      by_cases h1 : c = '\r'
      · by_cases h2 : d = '\n'
        · exact absurd ⟨h1, by simp [h2]⟩ hc
        · simp [h2]
      · simp [h1]
    simp [splitlinesAux, hs, hcd]

theorem slAux_cons_nonsep (acc : List Char) (c : Char) (rest : List Char)
    (hs : isLineSep c = false) :
    splitlinesAux acc (c :: rest) = splitlinesAux (c :: acc) rest := by
  cases rest with
  | nil => simp [splitlinesAux, hs]
  | cons d r2 => simp [splitlinesAux, hs]

theorem slAux_nl (acc rest : List Char) :
    splitlinesAux acc ('\n' :: rest) = acc.reverse :: splitlinesAux [] rest :=
  slAux_cons_sep acc '\n' rest (by decide)
    (fun h => absurd h.1 (by decide))

theorem slAux_acc (r : List Char) : ∀ acc,
    splitlinesAux acc r =
      match splitlinesL r with
      | [] => if acc.isEmpty then [] else [acc.reverse]
      | h :: t => (acc.reverse ++ h) :: t := by
  induction r with
  | nil =>
    intro acc
    simp [splitlinesL, splitlinesAux]
  | cons c r' ih =>
    intro acc
    cases r' with
    | nil =>
      by_cases hs : isLineSep c = true
      · simp [splitlinesL, splitlinesAux, hs]
      · simp [splitlinesL, splitlinesAux, hs]
    | cons d rest =>
      by_cases hs : isLineSep c = true
      · by_cases hcd : c = '\r' ∧ (d :: rest).head? = some '\n'
        · obtain ⟨h1, h2⟩ := hcd
          have h2' : d = '\n' := by simpa using h2
          subst h1
          subst h2'
          have e1 : isLineSep '\r' = true := by decide
          have e2 : (('\r' : Char) = '\r' && ('\n' : Char) = '\n') = true := by
            decide
          simp [splitlinesL, splitlinesAux, e1, e2]
        · rw [slAux_cons_sep acc c (d :: rest) hs hcd,
            show splitlinesL (c :: d :: rest)
              = [] :: splitlinesAux [] (d :: rest) from by
                simpa using slAux_cons_sep [] c (d :: rest) hs hcd]
          simp
      · have hs' : isLineSep c = false := Bool.eq_false_iff.mpr hs
        rw [slAux_cons_nonsep acc c (d :: rest) hs', ih (c :: acc),
          show splitlinesL (c :: d :: rest) = splitlinesAux [c] (d :: rest) from
            slAux_cons_nonsep [] c _ hs',
          ih [c]]
        cases splitlinesL (d :: rest) with
        | nil => simp
        | cons h t => simp

theorem lines_cons_nonsep {c : Char} (hs : isLineSep c = false) (r : List Char) :
    splitlinesL (c :: r) =
      match splitlinesL r with
      | [] => [[c]]
      | h :: t => (c :: h) :: t := by
  rw [show splitlinesL (c :: r) = splitlinesAux [c] r from
    slAux_cons_nonsep [] c r hs, slAux_acc r [c]]
  cases splitlinesL r with
  | nil => simp
  | cons h t => simp

theorem lines_nl (r : List Char) :
    splitlinesL ('\n' :: r) = [] :: splitlinesL r := by
  simpa using slAux_nl [] r

theorem lines_ne_nil {s : List Char} (h : s ≠ []) : splitlinesL s ≠ [] := by
  cases s with
  | nil => exact absurd rfl h
  | cons c r =>
    by_cases hs : isLineSep c = true
    · by_cases hcd : c = '\r' ∧ r.head? = some '\n'
      · obtain ⟨h1, h2⟩ := hcd
        cases r with
        | nil => simp at h2
        | cons d rest =>
          have h2' : d = '\n' := by simpa using h2
          subst h1
          subst h2'
          have e1 : isLineSep '\r' = true := by decide
          have e2 : (('\r' : Char) = '\r' && ('\n' : Char) = '\n') = true := by
            decide
          simp [splitlinesL, splitlinesAux, e1, e2]
      · rw [show splitlinesL (c :: r) = splitlinesAux [] (c :: r) from rfl,
          slAux_cons_sep [] c r hs hcd]
        simp
    · rw [lines_cons_nonsep (Bool.eq_false_iff.mpr hs)]
      cases splitlinesL r <;> simp

theorem lines_chunk (piece : List Char)
    (hp : ∀ c ∈ piece, isLineSep c = false) (rest : List Char) :
    splitlinesL (piece ++ '\n' :: rest) = piece :: splitlinesL rest := by
  induction piece with
  | nil => exact lines_nl rest
  | cons c p ih =>
    have hc : isLineSep c = false := hp c (by simp)
    rw [List.cons_append, lines_cons_nonsep hc,
      ih (fun x hx => hp x (by simp [hx]))]

theorem lines_sepfree (x : List Char)
    (hx : ∀ c ∈ x, isLineSep c = false) :
    splitlinesL x = if x = [] then [] else [x] := by
  induction x with
  | nil => simp [splitlinesL, splitlinesAux]
  | cons c r ih =>
    have hc := hx c (by simp)
    rw [lines_cons_nonsep hc, ih (fun y hy => hx y (by simp [hy]))]
    by_cases hr : r = []
    · subst hr
      simp
    · simp [hr]

theorem joinSep_cons_cons (sep x y : List Char) (t : List (List Char)) :
    joinSep sep (x :: y :: t) = x ++ sep ++ joinSep sep (y :: t) := rfl

theorem lines_join_mem (L : List (List Char))
    (hL : ∀ p ∈ L, ∀ c ∈ p, isLineSep c = false) :
    ∀ l ∈ splitlinesL (joinSep ['\n'] L), l ∈ L ∨ l = [] := by
  induction L with
  | nil =>
    intro l hl
    simp [joinSep, splitlinesL, splitlinesAux] at hl
  | cons x L' ih =>
    cases L' with
    | nil =>
      intro l hl
      rw [show joinSep ['\n'] [x] = x from rfl,
        lines_sepfree x (hL x (by simp))] at hl
      by_cases hx : x = []
      · simp [hx] at hl
      · simp [hx] at hl
        subst hl
        exact Or.inl (by simp)
    | cons y L'' =>
      intro l hl
      rw [joinSep_cons_cons, List.append_assoc, List.singleton_append,
        lines_chunk x (hL x (by simp)) _] at hl
      rcases List.mem_cons.mp hl with h1 | h1
      · exact Or.inl (by simp [h1])
      · rcases ih (fun p hp => hL p (by simp [hp])) l h1 with h2 | h2
        · exact Or.inl (by simp [h2])
        · exact Or.inr h2

theorem lines_join_mem_of (L : List (List Char))
    (hL : ∀ p ∈ L, ∀ c ∈ p, isLineSep c = false) :
    ∀ l ∈ L, l ≠ [] → l ∈ splitlinesL (joinSep ['\n'] L) := by
  induction L with
  | nil => intro l hl; simp at hl
  | cons x L' ih =>
    cases L' with
    | nil =>
      intro l hl hne
      have hx : l = x := by simpa using hl
      subst hx
      rw [show joinSep ['\n'] [l] = l from rfl, lines_sepfree l (hL l (by simp))]
      simp [hne]
    | cons y L'' =>
      intro l hl hne
      rw [joinSep_cons_cons, List.append_assoc, List.singleton_append,
        lines_chunk x (hL x (by simp)) _]
      rcases List.mem_cons.mp hl with h1 | h1
      · subst h1
        simp
      · exact List.mem_cons_of_mem _
          (ih (fun p hp => hL p (by simp [hp])) l h1 hne)

theorem lines_no_sep (s acc : List Char)
    (hacc : ∀ c ∈ acc, isLineSep c = false) :
    ∀ l ∈ splitlinesAux acc s, ∀ c ∈ l, isLineSep c = false := by
  induction acc, s using splitlinesAux.induct with
  | case1 acc ha =>
    intro l hl
    simp [splitlinesAux, ha] at hl
  | case2 acc ha =>
    intro l hl c hc
    rw [show splitlinesAux acc [] = [acc.reverse] from by
      simp [splitlinesAux, ha]] at hl
    have : l = acc.reverse := by simpa using hl
    subst this
    exact hacc c (by simpa using hc)
  | case3 acc c hs =>
    intro l hl x hx
    rw [show splitlinesAux acc [c] = [acc.reverse] from by
      simp [splitlinesAux, hs]] at hl
    have : l = acc.reverse := by simpa using hl
    subst this
    exact hacc x (by simpa using hx)
  | case4 acc c hs =>
    intro l hl x hx
    rw [show splitlinesAux acc [c] = [(c :: acc).reverse] from by
      simp [splitlinesAux, hs]] at hl
    have : l = (c :: acc).reverse := by simpa using hl
    subst this
    have hx' : x ∈ c :: acc := List.mem_reverse.mp hx
    rcases List.mem_cons.mp hx' with h1 | h1
    · subst h1
      exact Bool.eq_false_iff.mpr hs
    · exact hacc x h1
  | case5 acc c d rest hs hcd ih =>
    intro l hl x hx
    rw [show splitlinesAux acc (c :: d :: rest)
        = acc.reverse :: splitlinesAux [] rest from by
      simp [splitlinesAux, hs, hcd]] at hl
    rcases List.mem_cons.mp hl with h1 | h1
    · subst h1
      exact hacc x (by simpa using hx)
    · exact ih (by simp) l h1 x hx
  | case6 acc c d rest hs hcd ih =>
    intro l hl x hx
    rw [show splitlinesAux acc (c :: d :: rest)
        = acc.reverse :: splitlinesAux [] (d :: rest) from by
      simp [splitlinesAux, hs, hcd]] at hl
    rcases List.mem_cons.mp hl with h1 | h1
    · subst h1
      exact hacc x (by simpa using hx)
    · exact ih (by simp) l h1 x hx
  | case7 acc c d rest hs ih =>
    intro l hl x hx
    rw [show splitlinesAux acc (c :: d :: rest)
        = splitlinesAux (c :: acc) (d :: rest) from by
      simp [splitlinesAux, hs]] at hl
    refine ih ?_ l hl x hx
    intro y hy
    rcases List.mem_cons.mp hy with h1 | h1
    · subst h1
      exact Bool.eq_false_iff.mpr hs
    · exact hacc y h1

theorem join_slAux (acc s : List Char) (h1 : onlyNl s)
    (h2 : s.getLast? ≠ some '\n') :
    joinSep ['\n'] (splitlinesAux acc s)
      = if acc.isEmpty && s.isEmpty then [] else acc.reverse ++ s := by
  induction acc, s using splitlinesAux.induct with
  | case1 acc ha =>
    simp [splitlinesAux, ha, joinSep]
  | case2 acc ha =>
    rw [show splitlinesAux acc [] = [acc.reverse] from by
      simp [splitlinesAux, ha]]
    simp [joinSep, ha]
  | case3 acc c hs =>
    exfalso
    have hc : c = '\n' := h1 c (by simp) hs
    subst hc
    exact h2 rfl
  | case4 acc c hs =>
    rw [show splitlinesAux acc [c] = [(c :: acc).reverse] from by
      simp [splitlinesAux, hs]]
    simp [joinSep]
  | case5 acc c d rest hs hcd ih =>
    exfalso
    have hcr : c = '\r' := by
      simp only [Bool.and_eq_true, decide_eq_true_eq] at hcd
      exact hcd.1
    have : c = '\n' := h1 c (by simp) hs
    rw [hcr] at this
    exact absurd this (by decide)
  | case6 acc c d rest hs hcd ih =>
    have hc : c = '\n' := h1 c (by simp) hs
    rw [show splitlinesAux acc (c :: d :: rest)
        = acc.reverse :: splitlinesAux [] (d :: rest) from by
      simp [splitlinesAux, hs, hcd]]
    have hne : splitlinesAux [] (d :: rest) ≠ [] := lines_ne_nil (by simp)
    have h1' : onlyNl (d :: rest) := fun x hx hsx => h1 x (by simp [hx]) hsx
    have h2' : (d :: rest).getLast? ≠ some '\n' := by
      rw [← List.getLast?_cons_cons]
      exact h2
    have ihs := ih h1' h2'
    cases he : splitlinesAux [] (d :: rest) with
    | nil => exact absurd he hne
    | cons q qs =>
      rw [he] at ihs
      rw [show joinSep ['\n'] (acc.reverse :: q :: qs)
          = acc.reverse ++ ['\n'] ++ joinSep ['\n'] (q :: qs) from rfl, ihs]
      subst hc
      simp
  | case7 acc c d rest hs ih =>
    rw [show splitlinesAux acc (c :: d :: rest)
        = splitlinesAux (c :: acc) (d :: rest) from by
      simp [splitlinesAux, hs]]
    have h1' : onlyNl (d :: rest) := fun x hx hsx => h1 x (by simp [hx]) hsx
    have h2' : (d :: rest).getLast? ≠ some '\n' := by
      rw [← List.getLast?_cons_cons]
      exact h2
    rw [ih h1' h2']
    simp

theorem joinSep_splitlinesL {s : List Char} (h1 : onlyNl s)
    (h2 : s.getLast? ≠ some '\n') :
    joinSep ['\n'] (splitlinesL s) = s := by
  have := join_slAux [] s h1 h2
  by_cases hs : s = []
  · subst hs
    simpa using this
  · rw [show splitlinesL s = splitlinesAux [] s from rfl, this]
    simp [hs]

/-! ### `collapseNl` lemmas -/

theorem hasSub_spec (n l : List Char) : hasSub n l = true ↔ n <:+: l := by
  induction l with
  | nil => simp [hasSub, List.isPrefixOf_iff_prefix]
  | cons c t ih =>
    rw [show hasSub n (c :: t) = (n.isPrefixOf (c :: t) || hasSub n t) from rfl]
    simp [List.isPrefixOf_iff_prefix, ih, List.infix_cons_iff]

theorem hasSub_mono {n l' l : List Char} (hi : l' <:+: l)
    (h : hasSub n l = false) : hasSub n l' = false := by
  rw [Bool.eq_false_iff]
  intro ht
  rw [Bool.eq_false_iff] at h
  exact h (hasSub_spec n l |>.mpr ((hasSub_spec n l').mp ht |>.trans hi))

theorem collapseNl_cons3 (c d e : Char) (r : List Char) :
    collapseNl (c :: d :: e :: r) =
      if (c = '\n' && d = '\n' && e = '\n') then collapseNl (d :: e :: r)
      else c :: collapseNl (d :: e :: r) := rfl

theorem collapse_sublist (s : List Char) : (collapseNl s).Sublist s := by
  induction s using collapseNl.induct with
  | case1 => simp [collapseNl]
  | case2 c => simp [collapseNl]
  | case3 c d => simp [collapseNl]
  | case4 c d e rest hb ih =>
    rw [collapseNl_cons3, if_pos hb]
    exact ih.trans (List.sublist_cons_self _ _)
  | case5 c d e rest hb ih =>
    rw [collapseNl_cons3, if_neg hb]
    exact ih.cons₂ c

theorem collapse_subset {s : List Char} : ∀ c ∈ collapseNl s, c ∈ s :=
  fun _ hc => (collapse_sublist s).subset hc

theorem collapse_fixed {s : List Char} (h : hasSub nl3 s = false) :
    collapseNl s = s := by
  induction s using collapseNl.induct with
  | case1 => rfl
  | case2 c => rfl
  | case3 c d => rfl
  | case4 c d e rest hb ih =>
    exfalso
    simp only [Bool.and_eq_true, decide_eq_true_eq] at hb
    obtain ⟨⟨h1, h2⟩, h3⟩ := hb
    subst h1; subst h2; subst h3
    rw [Bool.eq_false_iff] at h
    exact h (hasSub_of_isPrefixOf (by
      show nl3.isPrefixOf ('\n' :: '\n' :: '\n' :: rest) = true
      simp [nl3, List.isPrefixOf]))
  | case5 c d e rest hb ih =>
    rw [collapseNl_cons3, if_neg hb, ih]
    rw [show hasSub nl3 (c :: d :: e :: rest)
      = (nl3.isPrefixOf (c :: d :: e :: rest) || hasSub nl3 (d :: e :: rest))
      from rfl] at h
    exact (Bool.or_eq_false_iff.mp h).2

theorem collapse_cons_ne {x : Char} {xs : List Char}
    (h : ¬(x = '\n' ∧ xs.take 2 = ['\n', '\n'])) :
    collapseNl (x :: xs) = x :: collapseNl xs := by
  match xs with
  | [] => rfl
  | [d] => rfl
  | d :: e :: r =>
    have hb : (x = '\n' && d = '\n' && e = '\n') = false := by
      by_cases h1 : x = '\n'
      · have h2 : ¬(d = '\n' ∧ e = '\n') := by
          intro ⟨hd, he⟩
          exact h ⟨h1, by simp [hd, he]⟩
        by_cases hd : d = '\n'
        · have he : ¬ e = '\n' := fun he => h2 ⟨hd, he⟩
          simp [he]
        · simp [hd]
      · simp [h1]
    rw [collapseNl_cons3, if_neg (by simp [hb])]

theorem collapse_noTriple (s : List Char) :
    hasSub nl3 (collapseNl s) = false := by
  induction s using collapseNl.induct with
  | case1 => decide
  | case2 c =>
    rw [show collapseNl [c] = [c] from rfl, Bool.eq_false_iff]
    intro ht
    have := (hasSub_spec _ _).mp ht
    have hlen := this.length_le
    simp [nl3] at hlen
  | case3 c d =>
    rw [show collapseNl [c, d] = [c, d] from rfl, Bool.eq_false_iff]
    intro ht
    have := (hasSub_spec _ _).mp ht
    have hlen := this.length_le
    simp [nl3] at hlen
  | case4 c d e rest hb ih =>
    rw [collapseNl_cons3, if_pos hb]
    exact ih
  | case5 c d e rest hb ih =>
    rw [collapseNl_cons3, if_neg hb]
    rw [show hasSub nl3 (c :: collapseNl (d :: e :: rest))
      = (nl3.isPrefixOf (c :: collapseNl (d :: e :: rest))
          || hasSub nl3 (collapseNl (d :: e :: rest))) from rfl]
    rw [ih, Bool.or_false]
    simp only [Bool.and_eq_true, decide_eq_true_eq, not_and] at hb
    by_cases h1 : c = '\n'
    · have h2 : ¬(d = '\n' ∧ e = '\n') := by
        intro ⟨hd, he⟩
        exact (hb ⟨h1, hd⟩) he
      subst h1
      by_cases hd : d = '\n'
      · have he : ¬ e = '\n' := fun he => h2 ⟨hd, he⟩
        subst hd
        rw [collapse_cons_ne (by
          intro ⟨_, ht⟩
          rw [show (e :: rest).take 2 = e :: rest.take 1 from rfl] at ht
          exact he (List.cons.inj ht).1)]
        rw [@collapse_cons_ne e rest (by intro ⟨hee, _⟩; exact he hee)]
        have hee : (('\n' : Char) == e) = false :=
          beq_eq_false_iff_ne.mpr (Ne.symm he)
        simp [nl3, List.isPrefixOf, hee]
      · have hdd : (('\n' : Char) == d) = false :=
          beq_eq_false_iff_ne.mpr (Ne.symm hd)
        rw [collapse_cons_ne (by intro ⟨hd1, _⟩; exact hd hd1)]
        simp [nl3, List.isPrefixOf, hdd]
    · have hcc : (('\n' : Char) == c) = false :=
        beq_eq_false_iff_ne.mpr (Ne.symm h1)
      simp [nl3, List.isPrefixOf, hcc]

theorem collapse_nl_cons (rest : List Char) :
    collapseNl ('\n' :: rest) =
      if rest.take 2 = ['\n', '\n'] then collapseNl rest
      else '\n' :: collapseNl rest := by
  match rest with
  | [] => rfl
  | [d] =>
    rw [if_neg (by simp)]
    rfl
  | d :: e :: r =>
    rw [show (d :: e :: r).take 2 = [d, e] from rfl]
    by_cases hd : d = '\n'
    · by_cases he : e = '\n'
      · rw [collapseNl_cons3, if_pos (by simp [hd, he]), if_pos (by simp [hd, he])]
      · rw [collapseNl_cons3, if_neg (by simp [he]), if_neg (by simp [he])]
    · rw [collapseNl_cons3, if_neg (by simp [hd]), if_neg (by simp [hd])]

theorem collapse_append_nlfree {piece : List Char}
    (hp : ∀ c ∈ piece, c ≠ '\n') (t : List Char) :
    collapseNl (piece ++ t) = piece ++ collapseNl t := by
  induction piece with
  | nil => rfl
  | cons c p ih =>
    have hc : c ≠ '\n' := hp c (by simp)
    rw [List.cons_append,
      collapse_cons_ne (by intro ⟨h1, _⟩; exact hc h1),
      ih (fun x hx => hp x (by simp [hx])), List.cons_append]

/-! ### Trim commutation -/

theorem rdropWhile_cons_eq (p : Char → Bool) (c : Char) (t : List Char) :
    List.rdropWhile p (c :: t)
      = if List.rdropWhile p t = [] then (if p c then [] else [c])
        else c :: List.rdropWhile p t := by
  have hiff : (List.rdropWhile p t = []) ↔ (List.dropWhile p t.reverse = []) := by
    simp [List.rdropWhile]
  by_cases h : List.dropWhile p t.reverse = []
  · rw [if_pos (hiff.mpr h)]
    simp only [List.rdropWhile, List.reverse_cons, List.dropWhile_append, h]
    by_cases hp : p c <;> simp [hp, List.dropWhile]
  · rw [if_neg (fun he => h (hiff.mp he))]
    simp only [List.rdropWhile, List.reverse_cons, List.dropWhile_append, h]
    simp [h]

theorem rdropWhile_append_eq (p : Char → Bool) (a b : List Char) :
    List.rdropWhile p (a ++ b)
      = if List.rdropWhile p b = [] then List.rdropWhile p a
        else a ++ List.rdropWhile p b := by
  have hiff : (List.rdropWhile p b = []) ↔ (List.dropWhile p b.reverse = []) := by
    simp [List.rdropWhile]
  by_cases h : List.dropWhile p b.reverse = []
  · rw [if_pos (hiff.mpr h)]
    simp only [List.rdropWhile, List.reverse_append, List.dropWhile_append, h]
    simp
  · rw [if_neg (fun he => h (hiff.mp he))]
    simp only [List.rdropWhile, List.reverse_append, List.dropWhile_append, h]
    simp [h]

theorem dropWhile_rdropWhile_comm (p : Char → Bool) (l : List Char) :
    List.dropWhile p (List.rdropWhile p l)
      = List.rdropWhile p (List.dropWhile p l) := by
  induction l with
  | nil => rfl
  | cons c t ih =>
    by_cases hp : p c = true
    · rw [List.dropWhile_cons_of_pos hp, rdropWhile_cons_eq]
      by_cases h : List.rdropWhile p t = []
      · rw [if_pos h, if_pos hp]
        rw [show List.dropWhile p [] = ([] : List Char) from rfl, ← ih, h]
        rfl
      · rw [if_neg h, List.dropWhile_cons_of_pos hp, ih]
    · rw [List.dropWhile_cons_of_neg hp, rdropWhile_cons_eq]
      by_cases h : List.rdropWhile p t = []
      · rw [if_pos h, if_neg hp]
        exact List.dropWhile_cons_of_neg hp
      · rw [if_neg h, List.dropWhile_cons_of_neg hp]

theorem pyStrip_trimLeft (l : List Char) : pyStrip (trimLeft l) = pyStrip l := by
  show trimR (trimLeft (trimLeft l)) = trimR (trimLeft l)
  rw [show trimLeft (trimLeft l) = (l.dropWhile pySpace).dropWhile pySpace
    from rfl, List.dropWhile_idempotent]
  rfl

theorem pyStrip_trimR (l : List Char) : pyStrip (trimR l) = pyStrip l := by
  show trimR (trimLeft (trimR l)) = trimR (trimLeft l)
  rw [show trimLeft (trimR l)
      = List.dropWhile pySpace (List.rdropWhile pySpace l) from rfl,
    dropWhile_rdropWhile_comm,
    show List.rdropWhile pySpace (List.dropWhile pySpace l)
      = List.rdropWhile pySpace (trimLeft l) from rfl,
    show trimR (List.rdropWhile pySpace (trimLeft l))
      = List.rdropWhile pySpace (List.rdropWhile pySpace (trimLeft l)) from rfl,
    List.rdropWhile_idempotent]
  rfl

theorem mem_joinSep {sep : List Char} {L : List (List Char)} :
    ∀ c ∈ joinSep sep L, c ∈ sep ∨ ∃ p ∈ L, c ∈ p := by
  induction L with
  | nil => intro c hc; simp [joinSep] at hc
  | cons x L' ih =>
    cases L' with
    | nil =>
      intro c hc
      rw [show joinSep sep [x] = x from rfl] at hc
      exact Or.inr ⟨x, by simp, hc⟩
    | cons y L'' =>
      intro c hc
      rw [joinSep_cons_cons] at hc
      simp only [List.append_assoc, List.mem_append] at hc
      rcases hc with h1 | h1 | h1
      · exact Or.inr ⟨x, by simp, h1⟩
      · exact Or.inl h1
      · rcases ih c h1 with h2 | ⟨p, hp, hcp⟩
        · exact Or.inl h2
        · exact Or.inr ⟨p, by simp [hp], hcp⟩

/-! ### `cleanLine` lemmas -/

theorem cleanLine_eq (l : List Char) :
    cleanLine l =
      if pyStrip l = [] then some []
      else if drop_exact.contains (lowerL (pyStrip l)) then none
      else if hasSub "m/signin".toList (pyStrip l) then none
      else if avatarMatch (pyStrip l) then none
      else if decide ((pyStrip l).length ≤ 3) && (pyStrip l).all Char.isDigit
        then none
      else some l := rfl

theorem cleanLine_nil : cleanLine [] = some [] := by decide

theorem cleanLine_cases {l m : List Char} (h : cleanLine l = some m) :
    m = [] ∨ m = l := by
  rw [cleanLine_eq] at h
  split_ifs at h with h0 h1 h2 h3 h4
  all_goals first
    | exact Option.noConfusion h
    | exact Or.inl (Option.some.inj h).symm
    | exact Or.inr (Option.some.inj h).symm

theorem cleanLine_self_of {l m : List Char} (h : cleanLine l = some m) :
    cleanLine m = some m := by
  rcases cleanLine_cases h with hm | hm
  · subst hm
    exact cleanLine_nil
  · subst hm
    exact h

theorem cleanLine_strip_congr {l l' : List Char}
    (hs : pyStrip l' = pyStrip l) (hne : pyStrip l ≠ [])
    (h : cleanLine l = some l) : cleanLine l' = some l' := by
  rw [cleanLine_eq] at h
  rw [cleanLine_eq, hs]
  rw [if_neg hne] at h ⊢
  by_cases h1 : drop_exact.contains (lowerL (pyStrip l)) = true
  · rw [if_pos h1] at h
    exact Option.noConfusion h
  · rw [if_neg h1] at h ⊢
    by_cases h2 : hasSub "m/signin".toList (pyStrip l) = true
    · rw [if_pos h2] at h
      exact Option.noConfusion h
    · rw [if_neg h2] at h ⊢
      by_cases h3 : avatarMatch (pyStrip l) = true
      · rw [if_pos h3] at h
        exact Option.noConfusion h
      · rw [if_neg h3] at h ⊢
        by_cases h4 : (decide ((pyStrip l).length ≤ 3)
            && (pyStrip l).all Char.isDigit) = true
        · rw [if_pos h4] at h
          exact Option.noConfusion h
        · rw [if_neg h4]

theorem pyStrip_cons_space {c : Char} (hc : pySpace c = true) (l : List Char) :
    pyStrip (c :: l) = pyStrip l := by
  show trimR (trimLeft (c :: l)) = trimR (trimLeft l)
  rw [show trimLeft (c :: l) = (c :: l).dropWhile pySpace from rfl,
    List.dropWhile_cons_of_pos hc]
  rfl

theorem keep_trimLeft {l : List Char} (h : cleanLine l = some l) :
    cleanLine (trimLeft l) = some (trimLeft l) := by
  by_cases h0 : pyStrip l = []
  · have hl : l = [] := by
      rw [cleanLine_eq, if_pos h0] at h
      exact (Option.some.inj h).symm
    subst hl
    exact cleanLine_nil
  · exact cleanLine_strip_congr (pyStrip_trimLeft l) h0 h

theorem keep_trimR {l : List Char} (h : cleanLine l = some l) :
    cleanLine (trimR l) = some (trimR l) := by
  by_cases h0 : pyStrip l = []
  · have hl : l = [] := by
      rw [cleanLine_eq, if_pos h0] at h
      exact (Option.some.inj h).symm
    subst hl
    exact cleanLine_nil
  · exact cleanLine_strip_congr (pyStrip_trimR l) h0 h

theorem keep_of_cons_space {c : Char} {l : List Char} (hc : pySpace c = true)
    (h : cleanLine (c :: l) = some (c :: l)) : cleanLine l = some l := by
  have h0 : pyStrip (c :: l) ≠ [] := by
    intro he
    rw [cleanLine_eq, if_pos he] at h
    exact List.noConfusion (Option.some.inj h)
  exact cleanLine_strip_congr (by rw [pyStrip_cons_space hc]) h0 h

theorem cleanLines_keep {L : List (List Char)} :
    ∀ m ∈ cleanLines L, cleanLine m = some m := by
  intro m hm
  obtain ⟨l, _, hl⟩ := List.mem_filterMap.mp hm
  exact cleanLine_self_of hl

theorem cleanLines_sub {L : List (List Char)} :
    ∀ m ∈ cleanLines L, m = [] ∨ m ∈ L := by
  intro m hm
  obtain ⟨l, hlL, hl⟩ := List.mem_filterMap.mp hm
  rcases cleanLine_cases hl with h | h
  · exact Or.inl h
  · subst h
    exact Or.inr hlL

theorem cleanLines_eq_self {L : List (List Char)}
    (h : ∀ l ∈ L, cleanLine l = some l) : cleanLines L = L := by
  induction L with
  | nil => rfl
  | cons x t ih =>
    have hx := h x (by simp)
    simp only [cleanLines, List.filterMap_cons, hx]
    rw [show List.filterMap cleanLine t = cleanLines t from rfl,
      ih (fun l hl => h l (by simp [hl]))]

/-- Splitting a string at its first newline. -/
theorem split_first_nl (s : List Char) :
    (∀ c ∈ s, c ≠ '\n') ∨
    ∃ piece rest, s = piece ++ '\n' :: rest ∧ ∀ c ∈ piece, c ≠ '\n' := by
  induction s with
  | nil => exact Or.inl (by simp)
  | cons c t ih =>
    by_cases hc : c = '\n'
    · exact Or.inr ⟨[], t, by simp [hc], by simp⟩
    · rcases ih with h | ⟨p, r, hr, hp⟩
      · refine Or.inl ?_
        intro x hx
        rcases List.mem_cons.mp hx with h1 | h1
        · subst h1
          exact hc
        · exact h x h1
      · refine Or.inr ⟨c :: p, r, by simp [hr], ?_⟩
        intro x hx
        rcases List.mem_cons.mp hx with h1 | h1
        · subst h1
          exact hc
        · exact hp x h1

/-! ### Line survival under trimming and newline collapsing -/

theorem keep_trimLeft_lines {s : List Char} (hnl : onlyNl s)
    (h : ∀ l ∈ splitlinesL s, cleanLine l = some l) :
    ∀ l ∈ splitlinesL (trimLeft s), cleanLine l = some l := by
  induction s with
  | nil => exact h
  | cons c t ih =>
    by_cases hsp : pySpace c = true
    · rw [show trimLeft (c :: t) = trimLeft t from by
        show (c :: t).dropWhile pySpace = t.dropWhile pySpace
        exact List.dropWhile_cons_of_pos hsp]
      have hnl' : onlyNl t := fun x hx => hnl x (by simp [hx])
      apply ih hnl'
      by_cases hsep : isLineSep c = true
      · have hc : c = '\n' := hnl c (by simp) hsep
        subst hc
        rw [lines_nl] at h
        intro l hl
        exact h l (by simp [hl])
      · rw [lines_cons_nonsep (Bool.eq_false_iff.mpr hsep)] at h
        intro l hl
        cases he : splitlinesL t with
        | nil =>
          rw [he] at hl
          simp at hl
        | cons q qs =>
          rw [he] at h hl
          dsimp only at h
          rcases List.mem_cons.mp hl with h1 | h1
          · subst h1
            exact keep_of_cons_space hsp (h (c :: l) (by simp))
          · exact h l (by simp [h1])
    · rw [show trimLeft (c :: t) = c :: t from by
        show (c :: t).dropWhile pySpace = c :: t
        exact List.dropWhile_cons_of_neg hsp]
      exact h

theorem keep_trimR_lines_aux (n : Nat) : ∀ (s : List Char), s.length ≤ n →
    onlyNl s → (∀ l ∈ splitlinesL s, cleanLine l = some l) →
    ∀ l ∈ splitlinesL (trimR s), cleanLine l = some l := by
  induction n with
  | zero =>
    intro s hlen _ h
    have hs : s = [] := List.length_eq_zero.mp (Nat.le_zero.mp hlen)
    subst hs
    exact h
  | succ n ih =>
    intro s hlen hnl h
    rcases split_first_nl s with hnf | ⟨piece, rest, hs, hp⟩
    · -- newline-free, hence (by `onlyNl`) separator-free
      have hsep : ∀ c ∈ s, isLineSep c = false := by
        intro c hc
        by_cases hb : isLineSep c = true
        · exact absurd (hnl c hc hb) (hnf c hc)
        · exact Bool.eq_false_iff.mpr hb
      have hsepR : ∀ c ∈ trimR s, isLineSep c = false := by
        intro c hc
        exact hsep c ((List.rdropWhile_prefix pySpace s).subset hc)
      intro l hl
      rw [lines_sepfree (trimR s) hsepR] at hl
      by_cases hr : trimR s = []
      · rw [if_pos hr] at hl
        simp at hl
      · rw [if_neg hr] at hl
        have hl' : l = trimR s := by simpa using hl
        subst hl'
        have hsne : s ≠ [] := by
          intro he
          subst he
          exact hr rfl
        apply keep_trimR
        apply h
        rw [lines_sepfree s hsep, if_neg hsne]
        simp
    · have hpsep : ∀ c ∈ piece, isLineSep c = false := by
        intro c hc
        by_cases hb : isLineSep c = true
        · exact absurd (hnl c (by rw [hs]; simp [hc]) hb) (hp c hc)
        · exact Bool.eq_false_iff.mpr hb
      rw [hs, lines_chunk piece hpsep] at h
      have hrestlen : rest.length ≤ n := by
        have := hlen
        rw [hs] at this
        simp at this
        omega
      have hrestnl : onlyNl rest := fun x hx hb =>
        hnl x (by rw [hs]; simp [hx]) hb
      rw [hs, show trimR (piece ++ '\n' :: rest)
          = List.rdropWhile pySpace (piece ++ '\n' :: rest) from rfl,
        rdropWhile_append_eq pySpace piece ('\n' :: rest)]
      rw [rdropWhile_cons_eq pySpace '\n' rest]
      by_cases hr : List.rdropWhile pySpace rest = []
      · rw [if_pos hr, if_pos (by decide)]
        -- trimR s = trimR piece, which is separator-free
        intro l hl
        have hsepR : ∀ c ∈ List.rdropWhile pySpace piece, isLineSep c = false :=
          fun c hc => hpsep c ((List.rdropWhile_prefix pySpace piece).subset hc)
        rw [lines_sepfree _ hsepR] at hl
        by_cases hq : List.rdropWhile pySpace piece = []
        · rw [if_pos hq] at hl
          simp at hl
        · rw [if_neg hq] at hl
          have hl' : l = List.rdropWhile pySpace piece := by simpa using hl
          subst hl'
          exact keep_trimR (h piece (by simp))
      · rw [if_neg hr, if_neg (List.cons_ne_nil _ _)]
        rw [lines_chunk piece hpsep]
        intro l hl
        rcases List.mem_cons.mp hl with h1 | h1
        · subst h1
          exact h l (by simp)
        · exact ih rest hrestlen hrestnl
            (fun l' hl' => h l' (by simp [hl'])) l h1

theorem lines_collapse_aux (n : Nat) : ∀ (s : List Char), s.length ≤ n →
    onlyNl s → ∀ l ∈ splitlinesL (collapseNl s),
      l ∈ splitlinesL s ∨ l = [] := by
  induction n with
  | zero =>
    intro s hlen _
    have hs : s = [] := List.length_eq_zero.mp (Nat.le_zero.mp hlen)
    subst hs
    intro l hl
    exact Or.inl hl
  | succ n ih =>
    intro s hlen hnl
    rcases split_first_nl s with hnf | ⟨piece, rest, hs, hp⟩
    · have hfix : collapseNl s = s := by
        conv_lhs => rw [← List.append_nil s]
        rw [collapse_append_nlfree hnf [],
          show collapseNl [] = ([] : List Char) from rfl, List.append_nil]
      rw [hfix]
      intro l hl
      exact Or.inl hl
    · have hpsep : ∀ c ∈ piece, isLineSep c = false := by
        intro c hc
        by_cases hb : isLineSep c = true
        · exact absurd (hnl c (by rw [hs]; simp [hc]) hb) (hp c hc)
        · exact Bool.eq_false_iff.mpr hb
      have hrestnl : onlyNl rest := fun x hx hb =>
        hnl x (by rw [hs]; simp [hx]) hb
      rw [hs, collapse_append_nlfree hp ('\n' :: rest), collapse_nl_cons]
      by_cases h2 : rest.take 2 = ['\n', '\n']
      · obtain ⟨rest2, hrest⟩ : ∃ rest2, rest = '\n' :: '\n' :: rest2 := by
          cases rest with
          | nil => simp at h2
          | cons x r1 =>
            cases r1 with
            | nil => simp at h2
            | cons y r2 =>
              rw [show (x :: y :: r2).take 2 = [x, y] from rfl] at h2
              obtain ⟨hx, hy⟩ : x = '\n' ∧ y = '\n' := by simpa using h2
              exact ⟨r2, by rw [hx, hy]⟩
        rw [if_pos h2, hrest,
          show piece ++ collapseNl ('\n' :: '\n' :: rest2)
            = collapseNl (piece ++ '\n' :: '\n' :: rest2) from
          (collapse_append_nlfree hp _).symm]
        have hlen' : (piece ++ '\n' :: '\n' :: rest2).length ≤ n := by
          rw [hs, hrest] at hlen
          simp at hlen
          simp
          omega
        have hnl' : onlyNl (piece ++ '\n' :: '\n' :: rest2) := by
          intro x hx hb
          rcases List.mem_append.mp hx with hm | hm
          · exact hnl x (by rw [hs]; simp [hm]) hb
          · rcases List.mem_cons.mp hm with hm | hm
            · exact hm
            · rcases List.mem_cons.mp hm with hm | hm
              · exact hm
              · exact hrestnl x (by rw [hrest]; simp [hm]) hb
        intro l hl
        rcases ih _ hlen' hnl' l hl with h3 | h3
        · rw [lines_chunk piece hpsep] at h3
          refine Or.inl ?_
          rw [lines_chunk piece hpsep, lines_nl]
          rcases List.mem_cons.mp h3 with h4 | h4
          · rw [h4]
            simp
          · simp [h4]
        · exact Or.inr h3
      · rw [if_neg h2, lines_chunk piece hpsep]
        intro l hl
        rcases List.mem_cons.mp hl with h1 | h1
        · refine Or.inl ?_
          rw [lines_chunk piece hpsep]
          simp [h1]
        · have hrlen : rest.length ≤ n := by
            rw [hs] at hlen
            simp at hlen
            omega
          rcases ih rest hrlen hrestnl l h1 with h3 | h3
          · rw [lines_chunk piece hpsep]
            exact Or.inl (by simp [h3])
          · exact Or.inr h3

theorem lines_collapse {s : List Char} (hnl : onlyNl s) :
    ∀ l ∈ splitlinesL (collapseNl s), l ∈ splitlinesL s ∨ l = [] :=
  lines_collapse_aux s.length s le_rfl hnl

theorem keep_trimR_lines {s : List Char} (hnl : onlyNl s)
    (h : ∀ l ∈ splitlinesL s, cleanLine l = some l) :
    ∀ l ∈ splitlinesL (trimR s), cleanLine l = some l :=
  keep_trimR_lines_aux s.length s le_rfl hnl h

/-! ### `clean_markdown` normalization invariant -/

theorem clean_markdown_fixed {s : List Char} (h : NormalizedStr s) :
    clean_markdown s = s := by
  obtain ⟨h1, h2, h3, h4, h5⟩ := h
  show pyStrip (collapseNl (joinSep ['\n'] (cleanLines (splitlinesL s)))) = s
  rw [cleanLines_eq_self h5]
  by_cases hs : s = []
  · subst hs
    rfl
  · have hlast : s.getLast? ≠ some '\n' := by
      intro he
      exact absurd (h4 '\n' he) (by decide)
    rw [joinSep_splitlinesL h1 hlast, collapse_fixed h2]
    exact pyStrip_eq_self h3 h4

theorem clean_markdown_normalized (md : List Char) :
    NormalizedStr (clean_markdown md) := by
  have hLsep : ∀ l ∈ splitlinesL md, ∀ c ∈ l, isLineSep c = false :=
    lines_no_sep md [] (by simp)
  have hMsep : ∀ m ∈ cleanLines (splitlinesL md), ∀ c ∈ m, isLineSep c = false := by
    intro m hm c hc
    rcases cleanLines_sub m hm with h | h
    · subst h
      simp at hc
    · exact hLsep m h c hc
  have hJnl : onlyNl (joinSep ['\n'] (cleanLines (splitlinesL md))) := by
    intro c hc hb
    rcases mem_joinSep c hc with h | ⟨p, hp, hcp⟩
    · simpa using h
    · have hf := hMsep p hp c hcp
      rw [hb] at hf
      exact Bool.noConfusion hf
  have hCnl : onlyNl (collapseNl (joinSep ['\n'] (cleanLines (splitlinesL md)))) :=
    fun c hc hb => hJnl c (collapse_subset c hc) hb
  have hJkeep : ∀ l ∈ splitlinesL (joinSep ['\n'] (cleanLines (splitlinesL md))),
      cleanLine l = some l := by
    intro l hl
    rcases lines_join_mem _ hMsep l hl with h | h
    · exact cleanLines_keep l h
    · subst h
      exact cleanLine_nil
  have hCkeep : ∀ l ∈ splitlinesL (collapseNl (joinSep ['\n']
      (cleanLines (splitlinesL md)))), cleanLine l = some l := by
    intro l hl
    rcases lines_collapse hJnl l hl with h | h
    · exact hJkeep l h
    · subst h
      exact cleanLine_nil
  have hTnl : onlyNl (trimLeft (collapseNl (joinSep ['\n']
      (cleanLines (splitlinesL md))))) := by
    intro c hc hb
    refine hCnl c ?_ hb
    exact (List.dropWhile_suffix pySpace).subset hc
  have hSkeep := keep_trimR_lines hTnl (keep_trimLeft_lines hCnl hCkeep)
  have hinf : pyStrip (collapseNl (joinSep ['\n'] (cleanLines (splitlinesL md))))
      <:+: collapseNl (joinSep ['\n'] (cleanLines (splitlinesL md))) :=
    List.infix_iff_prefix_suffix.mpr
      ⟨trimLeft (collapseNl (joinSep ['\n'] (cleanLines (splitlinesL md)))),
        List.rdropWhile_prefix pySpace _, List.dropWhile_suffix pySpace⟩
  refine ⟨?_, ?_, ?_, ?_, ?_⟩
  · intro c hc hb
    exact hCnl c (hinf.subset hc) hb
  · exact hasSub_mono hinf (collapse_noTriple _)
  · intro c hc
    exact pyStrip_head_not hc
  · intro c hc
    exact pyStrip_last_not hc
  · exact hSkeep

/-- C9: `clean_markdown` (lines 372-417) is idempotent: applying it to its
own output returns the output unchanged, for every input string. -/
theorem c9_clean_markdown_idempotent (md : List Char) :
    clean_markdown (clean_markdown md) = clean_markdown md :=
  clean_markdown_fixed (clean_markdown_normalized md)

/-- C7 counterexample: the line `follow m/signin` has extra trailing content
beyond the noise-vocabulary entry `follow` — its stripped, lowered form is
not a vocabulary entry — yet markdown cleanup removes it (the line-level
filter returns `none` for it and the whole-document cleanup yields the empty
string), because the sign-in-marker filter also drops lines.  This refutes
the claim's "never removes a line that has extra trailing content beyond the
exact match". -/
theorem c7_counterexample :
    clean_markdown "follow m/signin".toList = []
      ∧ drop_exact.contains (lowerL (pyStrip "follow m/signin".toList)) = false
      ∧ cleanLine "follow m/signin".toList = none := by
  refine ⟨?_, ?_, ?_⟩ <;> decide

/-- C7 (amended): every line whose stripped content case-insensitively
equals a noise-vocabulary entry is dropped; a line whose stripped content is
not an exact vocabulary match survives the vocabulary filter but is kept
verbatim only if it also escapes the sign-in-marker, avatar-shape and
short-numeric filters.  An input with five consecutive blank lines between
two content lines collapses to exactly one blank line, and the adjacent
content lines are not merged. -/
theorem c7_markdown_cleanup :
    (∀ l : List Char, drop_exact.contains (lowerL (pyStrip l)) = true →
      cleanLine l = none)
    ∧ (∀ l : List Char, pyStrip l ≠ [] →
        drop_exact.contains (lowerL (pyStrip l)) = false →
        hasSub "m/signin".toList (pyStrip l) = false →
        avatarMatch (pyStrip l) = false →
        (decide ((pyStrip l).length ≤ 3)
          && (pyStrip l).all Char.isDigit) = false →
        cleanLine l = some l)
    ∧ clean_markdown "alpha\n\n\n\n\n\nbeta".toList
        = "alpha\n\nbeta".toList := by
  refine ⟨?_, ?_, by decide⟩
  · intro l h
    rw [cleanLine_eq]
    have h0 : pyStrip l ≠ [] := by
      intro he
      rw [he] at h
      exact absurd h (by decide)
    rw [if_neg h0, if_pos h]
  · intro l h0 h1 h2 h3 h4
    rw [cleanLine_eq, if_neg h0,
      if_neg (by intro hc; rw [hc] at h1; exact Bool.noConfusion h1),
      if_neg (by intro hc; rw [hc] at h2; exact Bool.noConfusion h2),
      if_neg (by intro hc; rw [hc] at h3; exact Bool.noConfusion h3),
      if_neg (by intro hc; rw [hc] at h4; exact Bool.noConfusion h4)]

/-- Witness for C7: a noise-vocabulary line (with surrounding whitespace and
mixed case) is dropped, and a line extending a vocabulary word with trailing
content is kept verbatim. -/
theorem c7_markdown_cleanup_witness :
    cleanLine "  Follow  ".toList = none
      ∧ cleanLine "Follow the money".toList
          = some "Follow the money".toList := by
  constructor
  · exact c7_markdown_cleanup.1 "  Follow  ".toList (by decide)
  · exact c7_markdown_cleanup.2.1 "Follow the money".toList (by decide)
      (by decide) (by decide) (by decide) (by decide)

end Claudegram
